import Mathlib

/-!
# Verification of the core-crypto MLS/Proteus engine

A shallow embedding, in Lean 4, of the parts of the `core-crypto` sources
relevant to the checked claims:

* `crypto/src/conversation.rs` — the `MlsConversation` state machine
  (create / add_members / remove_members / encrypt_message / decrypt_message)
  together with its persistence discipline;
* `crypto/src/e2e_identity/state.rs` — the E2EI conversation-state classifier;
* `crypto/src/mls/external_commit.rs` — external-commit validation and the
  pending-group merge;
* `crypto/src/mls/mod.rs` — `MlsCentralConfiguration::try_new`;
* `crypto/src/proteus.rs` and
  `keystore/src/entities/platform/generic/proteus/identity.rs` — the Proteus
  session map and the singleton identity row.

The MLS wire codec and cryptographic primitives live in the external `openmls`
library; they are modelled here by executable idealizations (an injective
byte-level framing codec and an XOR-keystream AEAD) that satisfy the
correctness contract the library provides, while every piece of control flow
belonging to this repository is translated line by line from the source.
-/

namespace CoreCrypto

/-- Byte strings (`Vec<u8>` / `&[u8]`); bytes are modelled as naturals. -/
abbrev Bytes := List Nat

/-- `ConversationId = Vec<u8>` (conversation.rs). -/
abbrev ConversationId := Bytes

/-- `ClientId`: opaque byte string identifying a client. -/
abbrev ClientId := Bytes

/-- The error kinds of `CryptoError` (crypto/src/error.rs) reached by the
modelled code paths.  `mlsError` collects every error bubbled up from the
`openmls` library (`MlsError` wrapper). -/
inductive CryptoError where
  | conversationNotFound (id : ConversationId)
  | malformedIdentifier (field : String)
  | mlsNotInitialized
  | callbacksNotSet
  | unauthorizedExternalCommit
  | wrongEpoch
  | lockPoisonError
  | keystoreMissingKey
  | keystoreFailure
  | mlsError
  deriving DecidableEq, Repr

/-- `CryptoResult<T>` -/
abbrev CryptoResult (α : Type) := Except CryptoError α

/-! ## Idealized AEAD (openmls secret-tree application-message encryption)

The per-message key stream is derived from the epoch secret and the sender
ratchet generation; sealing XORs the stream into the payload.  This is the
standard perfectly-correct idealization of the AEAD provided by the MLS
library (out of scope of this repository per the spec). -/

/-- Key stream derived from the epoch secret and the ratchet generation. -/
def keyStream (epochKey generation : Nat) : Nat :=
  (2 * epochKey + 1) ^^^ (2 * generation)

/-- Seal an application payload under the epoch secret at a given generation. -/
def sealApp (epochKey generation : Nat) (payload : Bytes) : Bytes :=
  payload.map (fun b => b ^^^ keyStream epochKey generation)

/-- Open an application payload; XOR stream ciphers are involutive. -/
def openApp (epochKey generation : Nat) (ciphertext : Bytes) : Bytes :=
  ciphertext.map (fun b => b ^^^ keyStream epochKey generation)

theorem openApp_sealApp (k g : Nat) (m : Bytes) :
    openApp k g (sealApp k g m) = m := by
  simp only [openApp, sealApp, List.map_map]
  have h : ((fun b => b ^^^ keyStream k g) ∘ fun b => b ^^^ keyStream k g) = id := by
    funext b
    simp [Nat.xor_cancel_right]
  simp [h]

/-! ## MLS wire messages and framing codec

`MlsMessageOut::to_bytes` / `MlsMessageIn::try_from_bytes` are modelled by an
injective length-prefixed encoding with a verified decoder. -/

/-- A key package: the credential identity (client id) plus the HPKE init key.
`hash_ref` is modelled as the identity function on this record (a
collision-free hash). -/
structure KeyPackage where
  identity : ClientId
  initKey : Nat
  deriving DecidableEq, Repr

/-- MLS proposals as they appear in commits and proposal messages. -/
inductive ProposalP where
  | add (kp : KeyPackage)
  | remove (ref : KeyPackage)
  | externalInit
  deriving DecidableEq, Repr

/-- The content of a commit: the proposals it applies. -/
structure CommitDesc where
  adds : List KeyPackage
  removes : List KeyPackage
  deriving DecidableEq, Repr

/-- Framed MLS messages exchanged on the wire (`MlsMessageOut`/`MlsMessageIn`).
Application payloads are carried sealed under the epoch secrets. -/
inductive MlsMessage where
  | application (groupId : Bytes) (epoch : Nat) (generation : Nat) (ciphertext : Bytes)
  | proposal (groupId : Bytes) (epoch : Nat) (p : ProposalP)
  | commit (groupId : Bytes) (epoch : Nat) (c : CommitDesc)
  deriving DecidableEq, Repr

/-- Length-prefixed vector encoding. -/
def encodeVec (l : Bytes) : Bytes := l.length :: l

/-- Decode a length-prefixed vector, returning the payload and the rest. -/
def decodeVec : Bytes → Option (Bytes × Bytes)
  | [] => none
  | n :: rest =>
    if n ≤ rest.length then some (rest.take n, rest.drop n) else none

theorem decodeVec_encodeVec (l r : Bytes) :
    decodeVec (encodeVec l ++ r) = some (l, r) := by
  simp [encodeVec, decodeVec, List.take_left, List.drop_left]

/-- Injective encoding of a key package. -/
def KeyPackage.toBytes (kp : KeyPackage) : Bytes :=
  encodeVec kp.identity ++ [kp.initKey]

/-- Decoder for `KeyPackage.toBytes`. -/
def KeyPackage.fromBytes (b : Bytes) : Option (KeyPackage × Bytes) := do
  let (ident, rest) ← decodeVec b
  match rest with
  | k :: rest' => some (⟨ident, k⟩, rest')
  | [] => none

theorem kpFromBytes_toBytes (kp : KeyPackage) (r : Bytes) :
    KeyPackage.fromBytes (kp.toBytes ++ r) = some (kp, r) := by
  simp [KeyPackage.toBytes, KeyPackage.fromBytes, decodeVec_encodeVec, Option.bind]

/-- Injective encoding of a list of key packages (count-prefixed). -/
def encodeKPs (l : List KeyPackage) : Bytes :=
  l.length :: (l.map KeyPackage.toBytes).flatten

/-- Decode `n` consecutive key packages. -/
def decodeKPsAux : Nat → Bytes → Option (List KeyPackage × Bytes)
  | 0, b => some ([], b)
  | n + 1, b => do
    let (kp, rest) ← KeyPackage.fromBytes b
    let (kps, rest') ← decodeKPsAux n rest
    some (kp :: kps, rest')

/-- Decoder for `encodeKPs`. -/
def decodeKPs : Bytes → Option (List KeyPackage × Bytes)
  | [] => none
  | n :: rest => decodeKPsAux n rest

theorem decodeKPsAux_append (l : List KeyPackage) (r : Bytes) :
    decodeKPsAux l.length ((l.map KeyPackage.toBytes).flatten ++ r) = some (l, r) := by
  induction l generalizing r with
  | nil => simp [decodeKPsAux]
  | cons kp tl ih =>
    simp [decodeKPsAux, kpFromBytes_toBytes, List.append_assoc, ih, Option.bind]

theorem decodeKPs_encodeKPs (l : List KeyPackage) (r : Bytes) :
    decodeKPs (encodeKPs l ++ r) = some (l, r) := by
  simp [encodeKPs, decodeKPs, decodeKPsAux_append]

/-- Injective encoding of a proposal. -/
def ProposalP.toBytes : ProposalP → Bytes
  | .add kp => 0 :: kp.toBytes
  | .remove ref => 1 :: ref.toBytes
  | .externalInit => [2]

/-- Decoder for `ProposalP.toBytes`. -/
def ProposalP.fromBytes : Bytes → Option (ProposalP × Bytes)
  | 0 :: b => do
    let (kp, rest) ← KeyPackage.fromBytes b
    some (ProposalP.add kp, rest)
  | 1 :: b => do
    let (kp, rest) ← KeyPackage.fromBytes b
    some (ProposalP.remove kp, rest)
  | 2 :: b => some (ProposalP.externalInit, b)
  | _ => none

theorem proposalFromBytes_toBytes (p : ProposalP) (r : Bytes) :
    ProposalP.fromBytes (p.toBytes ++ r) = some (p, r) := by
  cases p <;>
    simp [ProposalP.toBytes, ProposalP.fromBytes, kpFromBytes_toBytes, Option.bind]

/-- Injective encoding of a commit description. -/
def CommitDesc.toBytes (c : CommitDesc) : Bytes :=
  encodeKPs c.adds ++ encodeKPs c.removes

/-- Decoder for `CommitDesc.toBytes`. -/
def CommitDesc.fromBytes (b : Bytes) : Option (CommitDesc × Bytes) := do
  let (adds, rest) ← decodeKPs b
  let (removes, rest') ← decodeKPs rest
  some (⟨adds, removes⟩, rest')

theorem commitFromBytes_toBytes (c : CommitDesc) (r : Bytes) :
    CommitDesc.fromBytes (c.toBytes ++ r) = some (c, r) := by
  simp [CommitDesc.toBytes, CommitDesc.fromBytes, List.append_assoc, decodeKPs_encodeKPs,
    Option.bind]

/-- `MlsMessageOut::to_bytes` (TLS serialization, modelled injectively). -/
def MlsMessage.toBytes : MlsMessage → Bytes
  | .application gid e g ct => 0 :: (encodeVec gid ++ [e, g] ++ encodeVec ct)
  | .proposal gid e p => 1 :: (encodeVec gid ++ [e] ++ p.toBytes)
  | .commit gid e c => 2 :: (encodeVec gid ++ [e] ++ c.toBytes)

/-- `MlsMessageIn::try_from_bytes` (TLS deserialization). -/
def MlsMessage.tryFromBytes (b : Bytes) : Option MlsMessage :=
  match b with
  | 0 :: rest => do
    let (gid, rest₁) ← decodeVec rest
    match rest₁ with
    | e :: g :: rest₂ => do
      let (ct, rest₃) ← decodeVec rest₂
      if rest₃ = [] then some (MlsMessage.application gid e g ct) else none
    | _ => none
  | 1 :: rest => do
    let (gid, rest₁) ← decodeVec rest
    match rest₁ with
    | e :: rest₂ => do
      let (p, rest₃) ← ProposalP.fromBytes rest₂
      if rest₃ = [] then some (MlsMessage.proposal gid e p) else none
    | _ => none
  | 2 :: rest => do
    let (gid, rest₁) ← decodeVec rest
    match rest₁ with
    | e :: rest₂ => do
      let (c, rest₃) ← CommitDesc.fromBytes rest₂
      if rest₃ = [] then some (MlsMessage.commit gid e c) else none
    | _ => none
  | _ => none

theorem MlsMessage.tryFromBytes_toBytes (m : MlsMessage) :
    MlsMessage.tryFromBytes m.toBytes = some m := by
  cases m with
  | application gid e g ct =>
    have h : decodeVec (encodeVec gid ++ (e :: g :: encodeVec ct))
        = some (gid, e :: g :: encodeVec ct) := decodeVec_encodeVec gid _
    have h' : decodeVec (encodeVec ct) = some (ct, []) := by
      simpa using decodeVec_encodeVec ct []
    simp [MlsMessage.toBytes, MlsMessage.tryFromBytes, List.append_assoc, h, h', Option.bind]
  | proposal gid e p =>
    have h : decodeVec (encodeVec gid ++ (e :: p.toBytes))
        = some (gid, e :: p.toBytes) := decodeVec_encodeVec gid _
    have h' : ProposalP.fromBytes p.toBytes = some (p, []) := by
      simpa using proposalFromBytes_toBytes p []
    simp [MlsMessage.toBytes, MlsMessage.tryFromBytes, List.append_assoc, h, h', Option.bind]
  | commit gid e c =>
    have h : decodeVec (encodeVec gid ++ (e :: c.toBytes))
        = some (gid, e :: c.toBytes) := decodeVec_encodeVec gid _
    have h' : CommitDesc.fromBytes c.toBytes = some (c, []) := by
      simpa using commitFromBytes_toBytes c []
    simp [MlsMessage.toBytes, MlsMessage.tryFromBytes, List.append_assoc, h, h', Option.bind]

/-! ## The MLS group (openmls `MlsGroup`, as driven by conversation.rs)

The group state records exactly what the conversation layer observes and
mutates: epoch, epoch secret, sender-ratchet generation, the member leaves,
pending proposals, the pending local commit, and the `InnerState` changed
flag that gates persistence. -/

/-- openmls `MlsGroup` state, as observed through the API surface used by
`crypto/src/conversation.rs`. -/
structure MlsGroup where
  groupId : Bytes
  epoch : Nat
  epochKey : Nat
  sendGeneration : Nat
  members : List KeyPackage
  pendingProposals : List ProposalP
  pendingCommit : Option CommitDesc
  stateChanged : Bool
  deriving DecidableEq, Repr

/-- `KeyPackage::hash_ref`: a collision-free hash, modelled as the identity
on the key-package record (refs are compared for equality only). -/
def KeyPackage.hash_ref (kp : KeyPackage) : KeyPackage := kp

/-- Fresh epoch secret produced by the MLS key schedule on a commit. -/
def deriveEpochKey (k : Nat) : Nat := 2 * k + 1

/-- `MlsGroup::create_message`: seals the payload at the current sender
generation, advances the sender ratchet and marks the state changed. -/
def MlsGroup.create_message (g : MlsGroup) (payload : Bytes) : MlsGroup × MlsMessage :=
  ({ g with sendGeneration := g.sendGeneration + 1, stateChanged := true },
   .application g.groupId g.epoch g.sendGeneration
     (sealApp g.epochKey g.sendGeneration payload))

/-- Apply a commit: drop removed leaves, append added leaves, advance the
epoch, rotate the epoch secret, reset the sender ratchet, clear the pending
proposal and commit slots. -/
def MlsGroup.applyCommit (g : MlsGroup) (cd : CommitDesc) : MlsGroup :=
  { g with
    members := (g.members.filter (fun kp => decide (kp ∉ cd.removes))) ++ cd.adds
    epoch := g.epoch + 1
    epochKey := deriveEpochKey g.epochKey
    sendGeneration := 0
    pendingProposals := []
    pendingCommit := none
    stateChanged := true }

/-- The welcome message covering the joiners of a commit. -/
structure Welcome where
  joiners : List KeyPackage
  deriving DecidableEq, Repr

/-- `MlsGroup::add_members` (openmls): fails on an empty key-package list
(`EmptyInputError::AddMembers`), otherwise stages a commit adding every
key package and returns the commit message plus one welcome covering all
joiners.  The epoch does not move until the commit is merged. -/
def MlsGroup.add_members (g : MlsGroup) (kps : List KeyPackage) :
    CryptoResult (MlsGroup × MlsMessage × Welcome) :=
  if kps.isEmpty then .error .mlsError
  else
    let cd : CommitDesc := ⟨kps, []⟩
    .ok ({ g with pendingCommit := some cd, stateChanged := true },
      .commit g.groupId g.epoch cd, ⟨kps⟩)

/-- `MlsGroup::remove_members` (openmls): fails on an empty ref list
(`EmptyInputError::RemoveMembers`) or on a ref absent from the tree,
otherwise stages a commit removing the referenced leaves. -/
def MlsGroup.remove_members (g : MlsGroup) (refs : List KeyPackage) :
    CryptoResult (MlsGroup × MlsMessage) :=
  if refs.isEmpty then .error .mlsError
  else if refs.any (fun r => decide (r ∉ g.members.map KeyPackage.hash_ref)) then
    .error .mlsError
  else
    let cd : CommitDesc := ⟨[], refs⟩
    .ok ({ g with pendingCommit := some cd, stateChanged := true },
      .commit g.groupId g.epoch cd)

/-- `MlsGroup::merge_pending_commit`: merges the staged local commit,
advancing the epoch; fails when no commit is pending. -/
def MlsGroup.merge_pending_commit (g : MlsGroup) : CryptoResult MlsGroup :=
  match g.pendingCommit with
  | none => .error .mlsError
  | some cd => .ok (g.applyCommit cd)

/-- `MlsGroup::merge_staged_commit`: merges a remote staged commit,
advancing the epoch. -/
def MlsGroup.merge_staged_commit (g : MlsGroup) (cd : CommitDesc) : CryptoResult MlsGroup :=
  .ok (g.applyCommit cd)

/-- openmls `ProcessedMessage`. -/
inductive ProcessedMessage where
  | applicationMessage (data : Bytes)
  | proposalMessage (p : ProposalP)
  | stagedCommitMessage (c : CommitDesc)
  deriving DecidableEq, Repr

/-- `MlsGroup::parse_message` followed by `process_unverified_message`:
checks group id and epoch, opens application payloads with the epoch
secrets (advancing the receiving ratchet, hence marking state changed),
and stages proposals/commits for the caller.  Messages from other epochs
are rejected (`WrongEpoch`); the retained-past-epoch window is not needed
by any claim. -/
def MlsGroup.process_message (g : MlsGroup) (m : MlsMessage) :
    CryptoResult (MlsGroup × ProcessedMessage) :=
  match m with
  | .application gid ep gen ct =>
    if gid ≠ g.groupId then .error .mlsError
    else if ep ≠ g.epoch then .error .wrongEpoch
    else .ok ({ g with stateChanged := true },
      .applicationMessage (openApp g.epochKey gen ct))
  | .proposal gid ep p =>
    if gid ≠ g.groupId then .error .mlsError
    else if ep ≠ g.epoch then .error .wrongEpoch
    else .ok (g, .proposalMessage p)
  | .commit gid ep c =>
    if gid ≠ g.groupId then .error .mlsError
    else if ep ≠ g.epoch then .error .wrongEpoch
    else .ok (g, .stagedCommitMessage c)

/-- `MlsGroup::store_pending_proposal`. -/
def MlsGroup.store_pending_proposal (g : MlsGroup) (p : ProposalP) : MlsGroup :=
  { g with pendingProposals := g.pendingProposals ++ [p], stateChanged := true }

/-- The serialized form written by `group.save(&mut buf)`: the group state
with the `InnerState` reset to `Persisted`. -/
def MlsGroup.serialized (g : MlsGroup) : MlsGroup :=
  { g with stateChanged := false }

/-! ## The keystore (MLS partitions) -/

/-- Association-list upsert keyed by conversation id. -/
def storeUpsert (l : List (ConversationId × MlsGroup)) (id : ConversationId)
    (g : MlsGroup) : List (ConversationId × MlsGroup) :=
  match l with
  | [] => [(id, g)]
  | (k, v) :: tl => if k = id then (id, g) :: tl else (k, v) :: storeUpsert tl id g

/-- Association-list lookup keyed by conversation id. -/
def storeLookup (l : List (ConversationId × MlsGroup)) (id : ConversationId) :
    Option MlsGroup :=
  match l with
  | [] => none
  | (k, v) :: tl => if k = id then some v else storeLookup tl id

/-- Association-list removal keyed by conversation id (SQL
`DELETE ... WHERE id = ?`: every matching row goes). -/
def storeRemove (l : List (ConversationId × MlsGroup)) (id : ConversationId) :
    List (ConversationId × MlsGroup) :=
  l.filter (fun kv => decide (kv.1 ≠ id))

/-- The keystore rows the MLS engine touches: the main group partition
(`mls_groups`) and the pending external-commit partition
(`mls_pending_groups`). -/
structure Keystore where
  mlsGroups : List (ConversationId × MlsGroup)
  mlsPendingGroups : List (ConversationId × MlsGroup)
  deriving DecidableEq, Repr

/-- `key_store().mls_group_persist(id, buf)`: upsert into the main
partition. -/
def Keystore.mls_group_persist (ks : Keystore) (id : ConversationId)
    (buf : MlsGroup) : Keystore :=
  { ks with mlsGroups := storeUpsert ks.mlsGroups id buf }

/-- `mls_pending_groups_save`: upsert into the pending partition. -/
def Keystore.mls_pending_groups_save (ks : Keystore) (id : ConversationId)
    (buf : MlsGroup) : Keystore :=
  { ks with mlsPendingGroups := storeUpsert ks.mlsPendingGroups id buf }

/-- `mls_pending_groups_load`: lookup in the pending partition; a missing
row is `MissingKeyInStore(MlsPendingGroup)`. -/
def Keystore.mls_pending_groups_load (ks : Keystore) (id : ConversationId) :
    CryptoResult MlsGroup :=
  match storeLookup ks.mlsPendingGroups id with
  | none => .error .keystoreMissingKey
  | some g => .ok g

/-- `mls_pending_groups_delete`: remove from the pending partition. -/
def Keystore.mls_pending_groups_delete (ks : Keystore) (id : ConversationId) :
    Keystore :=
  { ks with mlsPendingGroups := storeRemove ks.mlsPendingGroups id }

/-! ## The conversation layer (crypto/src/conversation.rs) -/

/-- `MlsConversation` (the admins/configuration fields play no part in the
modelled operations). -/
structure MlsConversation where
  id : ConversationId
  group : MlsGroup
  deriving DecidableEq, Repr

/-- A member of a conversation as consumed by `add_members`/`remove_members`:
the user's client ids, each with the key package fetched for it (`None` when
no key package could be obtained). -/
structure ConversationMember where
  clientKeypackages : List (ClientId × Option KeyPackage)
  deriving DecidableEq, Repr

/-- `ConversationMember::clients`. -/
def ConversationMember.clients (m : ConversationMember) : List ClientId :=
  m.clientKeypackages.map Prod.fst

/-- `ConversationMember::keypackages_for_all_clients`. -/
def ConversationMember.keypackages_for_all_clients (m : ConversationMember) :
    List (ClientId × Option KeyPackage) :=
  m.clientKeypackages

/-- `MlsConversationCreationMessage`. -/
structure MlsConversationCreationMessage where
  welcome : Welcome
  message : MlsMessage
  deriving DecidableEq, Repr

/-- The persistence epilogue shared by `add_members`, `remove_members` and
`decrypt_message`:
`if group.state_changed() == Changed { group.save(&mut buf); mls_group_persist(id, buf) }`. -/
def persistGroupIfChanged (id : ConversationId) (g : MlsGroup) (ks : Keystore) :
    MlsGroup × Keystore :=
  if g.stateChanged then
    (g.serialized, ks.mls_group_persist id g.serialized)
  else (g, ks)

/-- `MlsConversation::encrypt_message`: frame and seal the payload; the group
is mutated in memory (sender ratchet advanced) and nothing is persisted. -/
def MlsConversation.encrypt_message (c : MlsConversation) (message : Bytes) :
    CryptoResult (Bytes × MlsConversation) :=
  let (g, m) := c.group.create_message message
  .ok (m.toBytes, { c with group := g })

/-- `MlsConversation::decrypt_message`: parse, process, and for
proposals/commits stage/merge then persist if the state changed.  The
application-message branch returns the plaintext before the persistence
check is reached. -/
def MlsConversation.decrypt_message (c : MlsConversation) (message : Bytes)
    (ks : Keystore) : CryptoResult (Option Bytes × MlsConversation × Keystore) :=
  match MlsMessage.tryFromBytes message with
  | none => .error .mlsError
  | some msgIn =>
    match c.group.process_message msgIn with
    | .error e => .error e
    | .ok (g, pm) =>
      match pm with
      | .applicationMessage data => .ok (some data, { c with group := g }, ks)
      | .proposalMessage p =>
        let pres := persistGroupIfChanged c.id (g.store_pending_proposal p) ks
        .ok (none, { c with group := pres.1 }, pres.2)
      | .stagedCommitMessage cd =>
        match g.merge_staged_commit cd with
        | .error e => .error e
        | .ok g =>
          let pres := persistGroupIfChanged c.id g ks
          .ok (none, { c with group := pres.1 }, pres.2)

/-- `MlsConversation::add_members`: collect the key packages of all listed
clients, stage and immediately merge an add commit, persist if changed. -/
def MlsConversation.add_members (c : MlsConversation)
    (members : List ConversationMember) (ks : Keystore) :
    CryptoResult (MlsConversationCreationMessage × MlsConversation × Keystore) :=
  let keypackages :=
    (members.map (fun m => m.keypackages_for_all_clients.filterMap Prod.snd)).flatten
  match c.group.add_members keypackages with
  | .error e => .error e
  | .ok (g, message, welcome) =>
    match g.merge_pending_commit with
    | .error e => .error e
    | .ok g =>
      let pres := persistGroupIfChanged c.id g ks
      .ok (⟨welcome, message⟩, { c with group := pres.1 }, pres.2)

/-- `MlsConversation::remove_members`: keep only the key packages of current
members whose credential identity matches a listed client, stage and merge a
remove commit on those refs, persist if changed. -/
def MlsConversation.remove_members (c : MlsConversation)
    (members : List ConversationMember) (ks : Keystore) :
    CryptoResult (MlsMessage × MlsConversation × Keystore) :=
  let clients := (members.map ConversationMember.clients).flatten
  let memberKps :=
    (c.group.members.filter
      (fun kp => clients.any (fun cid => decide (cid = kp.identity)))).map
      KeyPackage.hash_ref
  match c.group.remove_members memberKps with
  | .error e => .error e
  | .ok (g, message) =>
    match g.merge_pending_commit with
    | .error e => .error e
    | .ok g =>
      let pres := persistGroupIfChanged c.id g ks
      .ok (message, { c with group := pres.1 }, pres.2)

/-- `MlsConversation::create`: build the group from the author's key package
(`freshKey` stands for the randomness drawn from the backend), add the extra
members when present (merging the commit immediately), and persist the group
unconditionally before returning. -/
def MlsConversation.create (id : ConversationId) (authorKp : KeyPackage)
    (extraMembers : List ConversationMember) (freshKey : Nat) (ks : Keystore) :
    CryptoResult ((MlsConversation × Option MlsConversationCreationMessage) × Keystore) :=
  let group : MlsGroup :=
    { groupId := id, epoch := 0, epochKey := freshKey, sendGeneration := 0
      members := [authorKp], pendingProposals := [], pendingCommit := none
      stateChanged := true }
  let kps :=
    (extraMembers.map (fun m => m.keypackages_for_all_clients.filterMap Prod.snd)).flatten
  if extraMembers.isEmpty then
    let ks := ks.mls_group_persist id group.serialized
    .ok ((⟨id, group.serialized⟩, none), ks)
  else
    match group.add_members kps with
    | .error e => .error e
    | .ok (g, message, welcome) =>
      match g.merge_pending_commit with
      | .error e => .error e
      | .ok g =>
        let ks := ks.mls_group_persist id g.serialized
        .ok ((⟨id, g.serialized⟩, some ⟨welcome, message⟩), ks)

/-! ## Shared lemmas -/

theorem storeLookup_storeUpsert (l : List (ConversationId × MlsGroup))
    (id : ConversationId) (g : MlsGroup) :
    storeLookup (storeUpsert l id g) id = some g := by
  induction l with
  | nil => simp [storeUpsert, storeLookup]
  | cons hd tl ih =>
    obtain ⟨k, v⟩ := hd
    by_cases hk : k = id
    · simp [storeUpsert, storeLookup, hk]
    · simp [storeUpsert, storeLookup, hk, ih]

theorem MlsGroup.process_message_ok (g g' : MlsGroup) (m : MlsMessage)
    (pm : ProcessedMessage) (h : g.process_message m = .ok (g', pm)) :
    g'.epoch = g.epoch ∧ g'.members = g.members ∧ g'.pendingCommit = g.pendingCommit := by
  cases m <;>
    (simp only [MlsGroup.process_message] at h
     split at h
     · exact absurd h (by simp)
     · split at h
       · exact absurd h (by simp)
       · obtain ⟨h₁, _⟩ := by simpa using h
         subst h₁
         simp_all)

theorem MlsGroup.applyCommit_epoch (g : MlsGroup) (cd : CommitDesc) :
    (g.applyCommit cd).epoch = g.epoch + 1 := rfl

theorem persistGroupIfChanged_fst (id : ConversationId) (g : MlsGroup) (ks : Keystore) :
    (persistGroupIfChanged id g ks).1.epoch = g.epoch ∧
      (persistGroupIfChanged id g ks).1.members = g.members := by
  unfold persistGroupIfChanged
  split <;> simp [MlsGroup.serialized]

/-! ## Claim C1 — application-message round trip -/

/-- C1: for every plaintext `x` and two members of the same group at the same
epoch (same group id, same epoch number, hence the same epoch secrets),
if one member `encrypt_message`s `x` then the other member's
`decrypt_message` on the produced ciphertext succeeds and returns exactly
`x`. -/
theorem C1_decrypt_encrypt_roundtrip
    (c1 c2 : MlsConversation) (ks : Keystore) (x ct : Bytes) (c1' : MlsConversation)
    (hgid : c2.group.groupId = c1.group.groupId)
    (hep : c2.group.epoch = c1.group.epoch)
    (hkey : c2.group.epochKey = c1.group.epochKey)
    (henc : c1.encrypt_message x = .ok (ct, c1')) :
    ∃ c2', c2.decrypt_message ct ks = .ok (some x, c2', ks) := by
  simp only [MlsConversation.encrypt_message, MlsGroup.create_message, Except.ok.injEq,
    Prod.mk.injEq] at henc
  obtain ⟨hct, -⟩ := henc
  subst hct
  refine ⟨⟨c2.id, { c2.group with stateChanged := true }⟩, ?_⟩
  simp only [MlsConversation.decrypt_message, MlsMessage.tryFromBytes_toBytes]
  simp [MlsGroup.process_message, hgid, hep, hkey, openApp_sealApp]

/-- Witness for C1 at a concrete pair of conversations sharing group id `[5]`,
epoch `0` and epoch secret `7`. -/
theorem C1_witness :
    ∃ c2',
      MlsConversation.decrypt_message
          ⟨[2], ⟨[5], 0, 7, 0, [⟨[4], 1⟩], [], none, false⟩⟩
          ((MlsMessage.application [5] 0 0 (sealApp 7 0 [10, 20])).toBytes)
          ⟨[], []⟩
        = .ok (some [10, 20], c2', ⟨[], []⟩) :=
  C1_decrypt_encrypt_roundtrip
    ⟨[1], ⟨[5], 0, 7, 0, [⟨[3], 1⟩], [], none, false⟩⟩
    ⟨[2], ⟨[5], 0, 7, 0, [⟨[4], 1⟩], [], none, false⟩⟩
    ⟨[], []⟩ [10, 20] _ _ rfl rfl rfl rfl

theorem persistGroupIfChanged_of_changed (id : ConversationId) (g : MlsGroup)
    (ks : Keystore) (h : g.stateChanged = true) :
    persistGroupIfChanged id g ks = (g.serialized, ks.mls_group_persist id g.serialized) := by
  simp [persistGroupIfChanged, h]

theorem MlsGroup.merge_pending_commit_ok (g g' : MlsGroup)
    (h : g.merge_pending_commit = .ok g') :
    ∃ cd, g.pendingCommit = some cd ∧ g' = g.applyCommit cd := by
  unfold MlsGroup.merge_pending_commit at h
  split at h
  · exact absurd h (by simp)
  · exact ⟨_, by assumption, by simpa using h.symm⟩

theorem MlsGroup.applyCommit_stateChanged (g : MlsGroup) (cd : CommitDesc) :
    (g.applyCommit cd).stateChanged = true := rfl

/-! ## Claim C3 — persistence before success -/

/-- C3 counterexample: `encrypt_message` succeeds and advances the sender
ratchet in memory, yet it takes no keystore handle at all — the previously
persisted snapshot (here up to date before the call) no longer matches the
serialized group after the call, so the serialized group is *not* persisted
before `encrypt_message` reports success. -/
theorem C3_counterexample :
    MlsConversation.encrypt_message
        ⟨[1], ⟨[5], 0, 7, 0, [⟨[3], 1⟩], [], none, false⟩⟩ [9]
      = .ok ((MlsMessage.application [5] 0 0 (sealApp 7 0 [9])).toBytes,
             ⟨[1], ⟨[5], 0, 7, 1, [⟨[3], 1⟩], [], none, true⟩⟩) ∧
    (⟨[5], 0, 7, 1, [⟨[3], 1⟩], [], none, true⟩ : MlsGroup)
      ≠ ⟨[5], 0, 7, 0, [⟨[3], 1⟩], [], none, false⟩ ∧
    storeLookup (Keystore.mk [([1], ⟨[5], 0, 7, 0, [⟨[3], 1⟩], [], none, false⟩)] []).mlsGroups [1]
      ≠ some (MlsGroup.serialized ⟨[5], 0, 7, 1, [⟨[3], 1⟩], [], none, true⟩) :=
  ⟨rfl, by decide, by decide⟩

/-- C3 amended: for every state-changing operation that goes through the
keystore — `create`, `add_members`, `remove_members`, and `decrypt_message`
of a handshake message — the serialized group is persisted under the
conversation id before the operation returns success; `encrypt_message`,
however, advances the ratchet state in memory and returns success without
persisting anything (its signature does not even touch the keystore). -/
theorem C3_persist_before_success :
    (∀ (id : ConversationId) (kp : KeyPackage) (ems : List ConversationMember)
        (fk : Nat) (ks : Keystore) res,
        MlsConversation.create id kp ems fk ks = .ok res →
        storeLookup res.2.mlsGroups id = some res.1.1.group) ∧
    (∀ (c : MlsConversation) (ms : List ConversationMember) (ks : Keystore) res,
        c.add_members ms ks = .ok res →
        storeLookup res.2.2.mlsGroups c.id = some res.2.1.group) ∧
    (∀ (c : MlsConversation) (ms : List ConversationMember) (ks : Keystore) res,
        c.remove_members ms ks = .ok res →
        storeLookup res.2.2.mlsGroups c.id = some res.2.1.group) ∧
    (∀ (c : MlsConversation) (b : Bytes) (ks : Keystore) (c' : MlsConversation)
        (ks' : Keystore),
        c.decrypt_message b ks = .ok (none, c', ks') →
        storeLookup ks'.mlsGroups c.id = some c'.group) ∧
    (∀ (c : MlsConversation) (m : Bytes) res,
        c.encrypt_message m = .ok res →
        res.2.group.sendGeneration = c.group.sendGeneration + 1 ∧
          res.2.group.stateChanged = true) := by
  refine ⟨?_, ?_, ?_, ?_, ?_⟩
  · intro id kp ems fk ks res h
    simp only [MlsConversation.create] at h
    split at h
    · obtain rfl := Except.ok.inj h
      simp [Keystore.mls_group_persist, storeLookup_storeUpsert]
    · split at h
      · exact Except.noConfusion h
      · split at h
        · exact Except.noConfusion h
        · obtain rfl := Except.ok.inj h
          simp [Keystore.mls_group_persist, storeLookup_storeUpsert]
  · intro c ms ks res h
    simp only [MlsConversation.add_members] at h
    split at h
    · exact Except.noConfusion h
    · split at h
      · exact Except.noConfusion h
      · rename_i g₁ msg w heq₁ g₂ heq₂
        obtain ⟨cd, -, hg₂⟩ := MlsGroup.merge_pending_commit_ok _ _ heq₂
        rw [persistGroupIfChanged_of_changed _ _ _ (by rw [hg₂]; rfl)] at h
        obtain rfl := Except.ok.inj h
        simp [Keystore.mls_group_persist, storeLookup_storeUpsert]
  · intro c ms ks res h
    simp only [MlsConversation.remove_members] at h
    split at h
    · exact Except.noConfusion h
    · split at h
      · exact Except.noConfusion h
      · rename_i g₁ msg heq₁ g₂ heq₂
        obtain ⟨cd, -, hg₂⟩ := MlsGroup.merge_pending_commit_ok _ _ heq₂
        rw [persistGroupIfChanged_of_changed _ _ _ (by rw [hg₂]; rfl)] at h
        obtain rfl := Except.ok.inj h
        simp [Keystore.mls_group_persist, storeLookup_storeUpsert]
  · intro c b ks c' ks' h
    simp only [MlsConversation.decrypt_message] at h
    split at h
    · exact Except.noConfusion h
    · split at h
      · exact Except.noConfusion h
      · split at h
        · simp at h
        · rw [persistGroupIfChanged_of_changed _ _ _ rfl] at h
          simp only [Except.ok.injEq, Prod.mk.injEq] at h
          obtain ⟨-, h₂, h₃⟩ := h
          subst h₂
          subst h₃
          simp [Keystore.mls_group_persist, storeLookup_storeUpsert]
        · split at h
          · exact Except.noConfusion h
          · rename_i g₂ heq₂
            have hch : g₂.stateChanged = true := by
              have h' : _ = g₂ := Except.ok.inj heq₂
              rw [← h']
              rfl
            rw [persistGroupIfChanged_of_changed _ _ _ hch] at h
            simp only [Except.ok.injEq, Prod.mk.injEq] at h
            obtain ⟨-, h₂, h₃⟩ := h
            subst h₂
            subst h₃
            simp [Keystore.mls_group_persist, storeLookup_storeUpsert]
  · intro c m res h
    simp only [MlsConversation.encrypt_message, MlsGroup.create_message, Except.ok.injEq] at h
    rw [← h]
    exact ⟨rfl, rfl⟩

/-- Witness for C3 amended, exercising every component at concrete inputs. -/
theorem C3_witness :
    (storeLookup [([1], ⟨[1], 0, 7, 0, [⟨[3], 1⟩], [], none, false⟩)] [1]
      = some (⟨[1], 0, 7, 0, [⟨[3], 1⟩], [], none, false⟩ : MlsGroup)) ∧
    (storeLookup [([1], ⟨[5], 1, 15, 0, [⟨[3], 1⟩, ⟨[4], 2⟩], [], none, false⟩)] [1]
      = some (⟨[5], 1, 15, 0, [⟨[3], 1⟩, ⟨[4], 2⟩], [], none, false⟩ : MlsGroup)) ∧
    (storeLookup [([1], ⟨[5], 1, 15, 0, [⟨[3], 1⟩], [], none, false⟩)] [1]
      = some (⟨[5], 1, 15, 0, [⟨[3], 1⟩], [], none, false⟩ : MlsGroup)) ∧
    (storeLookup [([1], ⟨[5], 0, 7, 0, [⟨[3], 1⟩], [.externalInit], none, false⟩)] [1]
      = some (⟨[5], 0, 7, 0, [⟨[3], 1⟩], [.externalInit], none, false⟩ : MlsGroup)) ∧
    ((1 : Nat) = 0 + 1 ∧ true = true) := by
  refine ⟨?_, ?_, ?_, ?_, ?_⟩
  · exact C3_persist_before_success.1 [1] ⟨[3], 1⟩ [] 7 ⟨[], []⟩
      ((⟨[1], ⟨[1], 0, 7, 0, [⟨[3], 1⟩], [], none, false⟩⟩, none),
        ⟨[([1], ⟨[1], 0, 7, 0, [⟨[3], 1⟩], [], none, false⟩)], []⟩) rfl
  · exact C3_persist_before_success.2.1
      ⟨[1], ⟨[5], 0, 7, 0, [⟨[3], 1⟩], [], none, false⟩⟩
      [⟨[([4], some ⟨[4], 2⟩)]⟩] ⟨[], []⟩
      (⟨⟨[⟨[4], 2⟩]⟩, .commit [5] 0 ⟨[⟨[4], 2⟩], []⟩⟩,
        ⟨[1], ⟨[5], 1, 15, 0, [⟨[3], 1⟩, ⟨[4], 2⟩], [], none, false⟩⟩,
        ⟨[([1], ⟨[5], 1, 15, 0, [⟨[3], 1⟩, ⟨[4], 2⟩], [], none, false⟩)], []⟩) rfl
  · exact C3_persist_before_success.2.2.1
      ⟨[1], ⟨[5], 0, 7, 0, [⟨[3], 1⟩, ⟨[4], 2⟩], [], none, false⟩⟩
      [⟨[([4], none)]⟩] ⟨[], []⟩
      (.commit [5] 0 ⟨[], [⟨[4], 2⟩]⟩,
        ⟨[1], ⟨[5], 1, 15, 0, [⟨[3], 1⟩], [], none, false⟩⟩,
        ⟨[([1], ⟨[5], 1, 15, 0, [⟨[3], 1⟩], [], none, false⟩)], []⟩) rfl
  · exact C3_persist_before_success.2.2.2.1
      ⟨[1], ⟨[5], 0, 7, 0, [⟨[3], 1⟩], [], none, false⟩⟩
      ((MlsMessage.proposal [5] 0 .externalInit).toBytes) ⟨[], []⟩
      ⟨[1], ⟨[5], 0, 7, 0, [⟨[3], 1⟩], [.externalInit], none, false⟩⟩
      ⟨[([1], ⟨[5], 0, 7, 0, [⟨[3], 1⟩], [.externalInit], none, false⟩)], []⟩ rfl
  · have h := C3_persist_before_success.2.2.2.2
      ⟨[1], ⟨[5], 0, 7, 0, [⟨[3], 1⟩], [], none, false⟩⟩ [9]
      ((MlsMessage.application [5] 0 0 (sealApp 7 0 [9])).toBytes,
        ⟨[1], ⟨[5], 0, 7, 1, [⟨[3], 1⟩], [], none, true⟩⟩) rfl
    exact ⟨h.1, rfl⟩

/-! ## Claim C4 — remove_members on clients that are not members -/

/-- C4 counterexample: the group has members `[1]` and `[2]`;
`remove_members` is called listing clients `[2]` (a member) and `[3]`
(not a member).  The claim demands the call fail all-or-nothing with
membership unchanged; the code filters the current members against the
listed clients, silently ignores `[3]`, succeeds, and removes `[2]`. -/
theorem C4_counterexample :
    MlsConversation.remove_members
        ⟨[9], ⟨[5], 0, 7, 0, [⟨[1], 0⟩, ⟨[2], 0⟩], [], none, false⟩⟩
        [⟨[([2], none), ([3], none)]⟩] ⟨[], []⟩
      = .ok (.commit [5] 0 ⟨[], [⟨[2], 0⟩]⟩,
          ⟨[9], ⟨[5], 1, 15, 0, [⟨[1], 0⟩], [], none, false⟩⟩,
          ⟨[([9], ⟨[5], 1, 15, 0, [⟨[1], 0⟩], [], none, false⟩)], []⟩) ∧
    [(⟨[1], 0⟩ : KeyPackage)] ≠ [⟨[1], 0⟩, ⟨[2], 0⟩] :=
  ⟨rfl, by decide⟩

theorem hash_ref_map (l : List KeyPackage) : l.map KeyPackage.hash_ref = l := by
  have h : KeyPackage.hash_ref = id := rfl
  rw [h, List.map_id]

/-- C4 amended: `remove_members` silently ignores listed clients that are not
current members.  Whenever at least one listed client is a current member,
the call succeeds, emits a commit, removes exactly the listed current
members, and advances the epoch. -/
theorem C4_remove_members_ignores_unknown
    (c : MlsConversation) (members : List ConversationMember) (ks : Keystore)
    (hmem : ∃ kp ∈ c.group.members,
        kp.identity ∈ (members.map ConversationMember.clients).flatten) :
    ∃ msg c' ks', c.remove_members members ks = .ok (msg, c', ks') ∧
      c'.group.members = c.group.members.filter
        (fun kp =>
          decide (kp.identity ∉ (members.map ConversationMember.clients).flatten)) ∧
      c'.group.epoch = c.group.epoch + 1 := by
  obtain ⟨kp₀, hkp₀, hid₀⟩ := hmem
  simp only [MlsConversation.remove_members]
  set clients := (members.map ConversationMember.clients).flatten with hclients
  set refs := (c.group.members.filter
      (fun kp => clients.any (fun cid => decide (cid = kp.identity)))).map
      KeyPackage.hash_ref with hrefs
  have hrefs' : refs = c.group.members.filter
      (fun kp => clients.any (fun cid => decide (cid = kp.identity))) := by
    rw [hrefs, hash_ref_map]
  have hmemf : kp₀ ∈ c.group.members.filter
      (fun kp => clients.any (fun cid => decide (cid = kp.identity))) := by
    rw [List.mem_filter]
    refine ⟨hkp₀, ?_⟩
    simp only [List.any_eq_true, decide_eq_true_eq]
    exact ⟨kp₀.identity, hid₀, rfl⟩
  have hne : refs.isEmpty = false := by
    rw [hrefs']
    rcases hfe : (c.group.members.filter
        (fun kp => clients.any (fun cid => decide (cid = kp.identity)))) with _ | _
    · rw [hfe] at hmemf
      exact absurd hmemf (List.not_mem_nil _)
    · rw [hfe]
      rfl
  have hsub : refs.any
      (fun r => decide (r ∉ c.group.members.map KeyPackage.hash_ref)) = false := by
    rw [List.any_eq_false]
    intro r hr
    rw [hrefs'] at hr
    simp only [decide_eq_true_eq, Decidable.not_not]
    rw [hash_ref_map]
    exact (List.mem_filter.mp hr).1
  simp only [MlsGroup.remove_members, hne, Bool.false_eq_true, if_false, hsub,
    MlsGroup.merge_pending_commit, MlsGroup.applyCommit]
  rw [persistGroupIfChanged_of_changed _ _ _ rfl]
  refine ⟨_, _, _, rfl, ?_, rfl⟩
  simp only [MlsGroup.serialized, List.append_nil]
  rw [List.filter_congr]
  intro kp hkp
  simp only [decide_eq_decide]
  rw [hrefs']
  constructor
  · intro hn
    simp only [List.mem_filter, not_and, List.any_eq_true, decide_eq_true_eq, not_exists] at hn
    intro hin
    exact (hn hkp) kp.identity hin rfl
  · intro hn
    rw [List.mem_filter]
    rintro ⟨-, hany⟩
    simp only [List.any_eq_true, decide_eq_true_eq] at hany
    obtain ⟨cid, hcid, rfl⟩ := hany
    exact hn hcid

/-- Witness for C4 amended on the counterexample's concrete group. -/
theorem C4_witness :
    ∃ msg c' ks',
      MlsConversation.remove_members
          ⟨[9], ⟨[5], 0, 7, 0, [⟨[1], 0⟩, ⟨[2], 0⟩], [], none, false⟩⟩
          [⟨[([2], none), ([3], none)]⟩] ⟨[], []⟩ = .ok (msg, c', ks') ∧
        c'.group.members =
          [⟨[1], 0⟩, ⟨[2], 0⟩].filter
            (fun kp => decide (kp.identity ∉
              ([⟨[([2], none), ([3], none)]⟩].map ConversationMember.clients).flatten)) ∧
        c'.group.epoch = 0 + 1 :=
  C4_remove_members_ignores_unknown
    ⟨[9], ⟨[5], 0, 7, 0, [⟨[1], 0⟩, ⟨[2], 0⟩], [], none, false⟩⟩
    [⟨[([2], none), ([3], none)]⟩] ⟨[], []⟩
    ⟨⟨[2], 0⟩, by decide, by decide⟩

/-! ## Claim C7 — epoch monotonicity -/

theorem MlsGroup.add_members_epoch (g : MlsGroup) (kps : List KeyPackage)
    (res : MlsGroup × MlsMessage × Welcome) (h : g.add_members kps = .ok res) :
    res.1.epoch = g.epoch := by
  simp only [MlsGroup.add_members] at h
  split at h
  · exact Except.noConfusion h
  · obtain rfl := Except.ok.inj h
    rfl

theorem MlsGroup.remove_members_epoch (g : MlsGroup) (refs : List KeyPackage)
    (res : MlsGroup × MlsMessage) (h : g.remove_members refs = .ok res) :
    res.1.epoch = g.epoch := by
  simp only [MlsGroup.remove_members] at h
  split at h
  · exact Except.noConfusion h
  · split at h
    · exact Except.noConfusion h
    · obtain rfl := Except.ok.inj h
      rfl

theorem MlsGroup.process_application (g g' : MlsGroup) (gid : Bytes) (e gen : Nat)
    (ct : Bytes) (pm : ProcessedMessage)
    (h : g.process_message (.application gid e gen ct) = .ok (g', pm)) :
    g' = { g with stateChanged := true } ∧
      pm = .applicationMessage (openApp g.epochKey gen ct) := by
  simp only [MlsGroup.process_message] at h
  split at h
  · exact Except.noConfusion h
  · split at h
    · exact Except.noConfusion h
    · obtain ⟨h₁, h₂⟩ := Prod.mk.inj (Except.ok.inj h)
      exact ⟨h₁.symm, h₂.symm⟩

theorem MlsGroup.process_proposal (g g' : MlsGroup) (gid : Bytes) (e : Nat)
    (p : ProposalP) (pm : ProcessedMessage)
    (h : g.process_message (.proposal gid e p) = .ok (g', pm)) :
    g' = g ∧ pm = .proposalMessage p := by
  simp only [MlsGroup.process_message] at h
  split at h
  · exact Except.noConfusion h
  · split at h
    · exact Except.noConfusion h
    · obtain ⟨h₁, h₂⟩ := Prod.mk.inj (Except.ok.inj h)
      exact ⟨h₁.symm, h₂.symm⟩

theorem MlsGroup.process_commit (g g' : MlsGroup) (gid : Bytes) (e : Nat)
    (cd : CommitDesc) (pm : ProcessedMessage)
    (h : g.process_message (.commit gid e cd) = .ok (g', pm)) :
    g' = g ∧ pm = .stagedCommitMessage cd := by
  simp only [MlsGroup.process_message] at h
  split at h
  · exact Except.noConfusion h
  · split at h
    · exact Except.noConfusion h
    · obtain ⟨h₁, h₂⟩ := Prod.mk.inj (Except.ok.inj h)
      exact ⟨h₁.symm, h₂.symm⟩

theorem MlsConversation.decrypt_message_epoch_le (c : MlsConversation) (b : Bytes)
    (ks : Keystore) (out : Option Bytes × MlsConversation × Keystore)
    (h : c.decrypt_message b ks = .ok out) :
    c.group.epoch ≤ out.2.1.group.epoch := by
  rcases htry : MlsMessage.tryFromBytes b with _ | msgIn
  · simp only [MlsConversation.decrypt_message, htry] at h
    exact Except.noConfusion h
  · simp only [MlsConversation.decrypt_message, htry] at h
    rcases hproc : c.group.process_message msgIn with e | ⟨g, pm⟩
    · rw [hproc] at h
      exact Except.noConfusion h
    · have hpr := MlsGroup.process_message_ok _ _ _ _ hproc
      rcases pm with dat | p | cd
      · simp only [hproc] at h
        obtain rfl := Except.ok.inj h
        simp [hpr.1]
      · simp only [hproc] at h
        obtain rfl := Except.ok.inj h
        have he : (persistGroupIfChanged c.id (g.store_pending_proposal p) ks).1.epoch
            = g.epoch := by
          rw [persistGroupIfChanged_of_changed _ _ _ rfl]
          rfl
        simp only [he, hpr.1]
        exact Nat.le_refl _
      · simp only [hproc] at h
        rcases hmrg : g.merge_staged_commit cd with e | g₂
        · rw [hmrg] at h
          exact Except.noConfusion h
        · rw [hmrg] at h
          have hg₂ : _ = g₂ := Except.ok.inj hmrg
          have hch : g₂.stateChanged = true := by rw [← hg₂]; rfl
          obtain rfl := Except.ok.inj h
          have he : (persistGroupIfChanged c.id g₂ ks).1.epoch = g₂.epoch := by
            rw [persistGroupIfChanged_of_changed _ _ _ hch]
            rfl
          simp only [he]
          rw [← hg₂, MlsGroup.applyCommit_epoch, hpr.1]
          exact Nat.le_succ _

theorem MlsConversation.add_members_epoch_succ (c : MlsConversation)
    (ms : List ConversationMember) (ks : Keystore)
    (out : MlsConversationCreationMessage × MlsConversation × Keystore)
    (h : c.add_members ms ks = .ok out) :
    out.2.1.group.epoch = c.group.epoch + 1 := by
  simp only [MlsConversation.add_members] at h
  rcases hadd : c.group.add_members
      ((ms.map (fun m => m.keypackages_for_all_clients.filterMap Prod.snd)).flatten)
    with e | ⟨g₁, msg, w⟩
  · rw [hadd] at h
    exact Except.noConfusion h
  · simp only [hadd] at h
    rcases hmrg : g₁.merge_pending_commit with e | g₂
    · rw [hmrg] at h
      exact Except.noConfusion h
    · rw [hmrg] at h
      obtain ⟨cd, -, hg₂⟩ := MlsGroup.merge_pending_commit_ok _ _ hmrg
      obtain rfl := Except.ok.inj h
      have h₁ : g₁.epoch = c.group.epoch := MlsGroup.add_members_epoch _ _ _ hadd
      have he : (persistGroupIfChanged c.id g₂ ks).1.epoch = g₂.epoch := by
        rw [persistGroupIfChanged_of_changed _ _ _ (by rw [hg₂]; rfl)]
        rfl
      show (persistGroupIfChanged c.id g₂ ks).1.epoch = c.group.epoch + 1
      rw [he, hg₂, MlsGroup.applyCommit_epoch, h₁]

theorem MlsConversation.remove_members_epoch_succ (c : MlsConversation)
    (ms : List ConversationMember) (ks : Keystore)
    (out : MlsMessage × MlsConversation × Keystore)
    (h : c.remove_members ms ks = .ok out) :
    out.2.1.group.epoch = c.group.epoch + 1 := by
  simp only [MlsConversation.remove_members] at h
  rcases hrem : c.group.remove_members
      ((c.group.members.filter
        (fun kp => ((ms.map ConversationMember.clients).flatten).any
          (fun cid => decide (cid = kp.identity)))).map KeyPackage.hash_ref)
    with e | ⟨g₁, msg⟩
  · rw [hrem] at h
    exact Except.noConfusion h
  · simp only [hrem] at h
    rcases hmrg : g₁.merge_pending_commit with e | g₂
    · rw [hmrg] at h
      exact Except.noConfusion h
    · rw [hmrg] at h
      obtain ⟨cd, -, hg₂⟩ := MlsGroup.merge_pending_commit_ok _ _ hmrg
      obtain rfl := Except.ok.inj h
      have h₁ : g₁.epoch = c.group.epoch := MlsGroup.remove_members_epoch _ _ _ hrem
      have he : (persistGroupIfChanged c.id g₂ ks).1.epoch = g₂.epoch := by
        rw [persistGroupIfChanged_of_changed _ _ _ (by rw [hg₂]; rfl)]
        rfl
      show (persistGroupIfChanged c.id g₂ ks).1.epoch = c.group.epoch + 1
      rw [he, hg₂, MlsGroup.applyCommit_epoch, h₁]

/-- The operations a caller can drive a conversation through (claim C7's
"sequence of valid operations"); `members` is the pure read of
`MlsConversation::members`. -/
inductive ConvOp where
  | encrypt (m : Bytes)
  | decrypt (b : Bytes)
  | addMembers (ms : List ConversationMember)
  | removeMembers (ms : List ConversationMember)
  | members
  deriving Repr

/-- One step of the conversation/keystore pair under an operation; failed
operations leave the state unchanged (Rust returns the error and the
conversation keeps its previous state). -/
def stepOp (s : MlsConversation × Keystore) (op : ConvOp) : MlsConversation × Keystore :=
  match op with
  | .encrypt m =>
    match s.1.encrypt_message m with
    | .ok out => (out.2, s.2)
    | .error _ => s
  | .decrypt b =>
    match s.1.decrypt_message b s.2 with
    | .ok out => (out.2.1, out.2.2)
    | .error _ => s
  | .addMembers ms =>
    match s.1.add_members ms s.2 with
    | .ok out => (out.2.1, out.2.2)
    | .error _ => s
  | .removeMembers ms =>
    match s.1.remove_members ms s.2 with
    | .ok out => (out.2.1, out.2.2)
    | .error _ => s
  | .members => s

theorem stepOp_epoch_le (s : MlsConversation × Keystore) (op : ConvOp) :
    s.1.group.epoch ≤ (stepOp s op).1.group.epoch := by
  cases op with
  | encrypt m =>
    simp only [stepOp]
    split
    · rename_i out heq
      simp only [MlsConversation.encrypt_message, Except.ok.injEq] at heq
      rw [← heq]
      exact Nat.le_refl _
    · exact Nat.le_refl _
  | decrypt b =>
    simp only [stepOp]
    split
    · rename_i out heq
      exact MlsConversation.decrypt_message_epoch_le _ _ _ _ heq
    · exact Nat.le_refl _
  | addMembers ms =>
    simp only [stepOp]
    split
    · rename_i out heq
      rw [MlsConversation.add_members_epoch_succ _ _ _ _ heq]
      exact Nat.le_succ _
    · exact Nat.le_refl _
  | removeMembers ms =>
    simp only [stepOp]
    split
    · rename_i out heq
      rw [MlsConversation.remove_members_epoch_succ _ _ _ _ heq]
      exact Nat.le_succ _
    · exact Nat.le_refl _
  | members => exact Nat.le_refl _

/-- C7: the epoch advances monotonically.  Over any sequence of operations
the observed epoch never decreases; the epoch changes only by
`merge_pending_commit` / `merge_staged_commit` (each accepted commit advances
it by exactly one, locally via `add_members`/`remove_members`, remotely via
`decrypt_message` of a commit); encrypting, decrypting an application
message, staging a proposal and reading the members leave the epoch
untouched. -/
theorem C7_epoch_monotonic :
    (∀ (s : MlsConversation × Keystore) (ops : List ConvOp),
        s.1.group.epoch ≤ (ops.foldl stepOp s).1.group.epoch) ∧
    (∀ g g', MlsGroup.merge_pending_commit g = .ok g' → g'.epoch = g.epoch + 1) ∧
    (∀ g cd g', MlsGroup.merge_staged_commit g cd = .ok g' → g'.epoch = g.epoch + 1) ∧
    (∀ (c : MlsConversation) m out, c.encrypt_message m = .ok out →
        out.2.group.epoch = c.group.epoch) ∧
    (∀ (c : MlsConversation) b ks out gid e gen ct,
        MlsMessage.tryFromBytes b = some (.application gid e gen ct) →
        c.decrypt_message b ks = .ok out → out.2.1.group.epoch = c.group.epoch) ∧
    (∀ (c : MlsConversation) b ks out gid e p,
        MlsMessage.tryFromBytes b = some (.proposal gid e p) →
        c.decrypt_message b ks = .ok out → out.2.1.group.epoch = c.group.epoch) ∧
    (∀ (c : MlsConversation) b ks out gid e cd,
        MlsMessage.tryFromBytes b = some (.commit gid e cd) →
        c.decrypt_message b ks = .ok out → out.2.1.group.epoch = c.group.epoch + 1) ∧
    (∀ (c : MlsConversation) ms ks out, c.add_members ms ks = .ok out →
        out.2.1.group.epoch = c.group.epoch + 1) ∧
    (∀ (c : MlsConversation) ms ks out, c.remove_members ms ks = .ok out →
        out.2.1.group.epoch = c.group.epoch + 1) ∧
    (∀ s, stepOp s .members = s) := by
  refine ⟨?_, ?_, ?_, ?_, ?_, ?_, ?_, ?_, ?_, ?_⟩
  · intro s ops
    induction ops generalizing s with
    | nil => exact Nat.le_refl _
    | cons op tl ih =>
      exact Nat.le_trans (stepOp_epoch_le s op) (ih (stepOp s op))
  · intro g g' h
    obtain ⟨cd, -, rfl⟩ := MlsGroup.merge_pending_commit_ok _ _ h
    rfl
  · intro g cd g' h
    obtain rfl := Except.ok.inj h
    rfl
  · intro c m out h
    simp only [MlsConversation.encrypt_message, Except.ok.injEq] at h
    rw [← h]
    rfl
  · intro c b ks out gid e gen ct htry h
    simp only [MlsConversation.decrypt_message, htry] at h
    rcases hproc : c.group.process_message (.application gid e gen ct) with er | ⟨g, pm⟩
    · rw [hproc] at h
      exact Except.noConfusion h
    · rw [hproc] at h
      obtain ⟨hg, hpm⟩ := MlsGroup.process_application _ _ _ _ _ _ _ hproc
      subst hpm
      obtain rfl := Except.ok.inj h
      show g.epoch = c.group.epoch
      rw [hg]
  · intro c b ks out gid e p htry h
    simp only [MlsConversation.decrypt_message, htry] at h
    rcases hproc : c.group.process_message (.proposal gid e p) with er | ⟨g, pm⟩
    · rw [hproc] at h
      exact Except.noConfusion h
    · rw [hproc] at h
      obtain ⟨hg, hpm⟩ := MlsGroup.process_proposal _ _ _ _ _ _ hproc
      subst hpm
      obtain rfl := Except.ok.inj h
      show (persistGroupIfChanged c.id (g.store_pending_proposal p) ks).1.epoch
        = c.group.epoch
      rw [persistGroupIfChanged_of_changed _ _ _ rfl, hg]
      rfl
  · intro c b ks out gid e cd htry h
    simp only [MlsConversation.decrypt_message, htry] at h
    rcases hproc : c.group.process_message (.commit gid e cd) with er | ⟨g, pm⟩
    · rw [hproc] at h
      exact Except.noConfusion h
    · rw [hproc] at h
      obtain ⟨hg, hpm⟩ := MlsGroup.process_commit _ _ _ _ _ _ hproc
      subst hpm
      simp only [MlsGroup.merge_staged_commit] at h
      obtain rfl := Except.ok.inj h
      show (persistGroupIfChanged c.id (g.applyCommit cd) ks).1.epoch
        = c.group.epoch + 1
      rw [persistGroupIfChanged_of_changed _ _ _ rfl, hg]
      rfl
  · exact fun c ms ks out h => MlsConversation.add_members_epoch_succ c ms ks out h
  · exact fun c ms ks out h => MlsConversation.remove_members_epoch_succ c ms ks out h
  · intro s
    rfl

/-- Witness for C7, instantiating every component at concrete data. -/
theorem C7_witness :
    ((0 : Nat) ≤ 1) ∧ ((1 : Nat) = 0 + 1) ∧ ((1 : Nat) = 0 + 1) ∧
      ((0 : Nat) = 0) ∧ ((0 : Nat) = 0) ∧ ((0 : Nat) = 0) ∧
      ((1 : Nat) = 0 + 1) ∧ ((1 : Nat) = 0 + 1) ∧ ((1 : Nat) = 0 + 1) ∧
      stepOp (⟨[1], ⟨[5], 0, 7, 0, [⟨[3], 1⟩], [], none, false⟩⟩, ⟨[], []⟩) .members
        = (⟨[1], ⟨[5], 0, 7, 0, [⟨[3], 1⟩], [], none, false⟩⟩, ⟨[], []⟩) := by
  obtain ⟨h₁, h₂, h₃, h₄, h₅, h₆, h₇, h₈, h₉, h₁₀⟩ := C7_epoch_monotonic
  refine ⟨?_, ?_, ?_, ?_, ?_, ?_, ?_, ?_, ?_, h₁₀ _⟩
  · exact h₁ (⟨[1], ⟨[5], 0, 7, 0, [⟨[3], 1⟩], [], none, false⟩⟩, ⟨[], []⟩)
      [.addMembers [⟨[([4], some ⟨[4], 2⟩)]⟩]]
  · exact h₂ ⟨[5], 0, 7, 0, [], [], some ⟨[], []⟩, false⟩
      ⟨[5], 1, 15, 0, [], [], none, true⟩ rfl
  · exact h₃ ⟨[5], 0, 7, 0, [⟨[3], 1⟩], [], none, false⟩ ⟨[], []⟩
      ⟨[5], 1, 15, 0, [⟨[3], 1⟩], [], none, true⟩ rfl
  · exact h₄ ⟨[1], ⟨[5], 0, 7, 0, [⟨[3], 1⟩], [], none, false⟩⟩ [9]
      ((MlsMessage.application [5] 0 0 (sealApp 7 0 [9])).toBytes,
        ⟨[1], ⟨[5], 0, 7, 1, [⟨[3], 1⟩], [], none, true⟩⟩) rfl
  · exact h₅ ⟨[1], ⟨[5], 0, 7, 0, [⟨[3], 1⟩], [], none, false⟩⟩
      ((MlsMessage.application [5] 0 0 (sealApp 7 0 [9])).toBytes) ⟨[], []⟩
      (some [9], ⟨[1], ⟨[5], 0, 7, 0, [⟨[3], 1⟩], [], none, true⟩⟩, ⟨[], []⟩)
      [5] 0 0 (sealApp 7 0 [9]) rfl rfl
  · exact h₆ ⟨[1], ⟨[5], 0, 7, 0, [⟨[3], 1⟩], [], none, false⟩⟩
      ((MlsMessage.proposal [5] 0 .externalInit).toBytes) ⟨[], []⟩
      (none, ⟨[1], ⟨[5], 0, 7, 0, [⟨[3], 1⟩], [.externalInit], none, false⟩⟩,
        ⟨[([1], ⟨[5], 0, 7, 0, [⟨[3], 1⟩], [.externalInit], none, false⟩)], []⟩)
      [5] 0 .externalInit rfl rfl
  · exact h₇ ⟨[1], ⟨[5], 0, 7, 0, [⟨[3], 1⟩], [], none, false⟩⟩
      ((MlsMessage.commit [5] 0 ⟨[⟨[9], 0⟩], []⟩).toBytes) ⟨[], []⟩
      (none, ⟨[1], ⟨[5], 1, 15, 0, [⟨[3], 1⟩, ⟨[9], 0⟩], [], none, false⟩⟩,
        ⟨[([1], ⟨[5], 1, 15, 0, [⟨[3], 1⟩, ⟨[9], 0⟩], [], none, false⟩)], []⟩)
      [5] 0 ⟨[⟨[9], 0⟩], []⟩ rfl rfl
  · exact h₈ ⟨[1], ⟨[5], 0, 7, 0, [⟨[3], 1⟩], [], none, false⟩⟩
      [⟨[([4], some ⟨[4], 2⟩)]⟩] ⟨[], []⟩
      (⟨⟨[⟨[4], 2⟩]⟩, .commit [5] 0 ⟨[⟨[4], 2⟩], []⟩⟩,
        ⟨[1], ⟨[5], 1, 15, 0, [⟨[3], 1⟩, ⟨[4], 2⟩], [], none, false⟩⟩,
        ⟨[([1], ⟨[5], 1, 15, 0, [⟨[3], 1⟩, ⟨[4], 2⟩], [], none, false⟩)], []⟩) rfl
  · exact h₉ ⟨[1], ⟨[5], 0, 7, 0, [⟨[3], 1⟩, ⟨[4], 2⟩], [], none, false⟩⟩
      [⟨[([4], none)]⟩] ⟨[], []⟩
      (.commit [5] 0 ⟨[], [⟨[4], 2⟩]⟩,
        ⟨[1], ⟨[5], 1, 15, 0, [⟨[3], 1⟩], [], none, false⟩⟩,
        ⟨[([1], ⟨[5], 1, 15, 0, [⟨[3], 1⟩], [], none, false⟩)], []⟩) rfl

/-! ## Claim C2 — the E2EI conversation-state classifier
(crypto/src/e2e_identity/state.rs) -/

/-- `E2eiConversationState` (state.rs).  The source doc comments read:
`Verified`: "All clients have a valid E2EI certificate"; `Degraded`: "Some
clients are either still Basic or their certificate is expired";
`NotEnabled`: "All clients are still Basic.  If all client have expired
certificates, Degraded is returned." -/
inductive E2eiConversationState where
  | Verified
  | Degraded
  | NotEnabled
  deriving DecidableEq, Repr

/-- What the classifier observes of one member's leaf credential:
`basic` for `parse_leaf_cert() = Ok(None)` (no X.509 certificate),
`parseFail` for `parse_leaf_cert() = Err(_)`, and `x509` with the outcomes
of `extract_identity().is_ok()` and `is_time_valid().unwrap_or(false)`. -/
inductive LeafCredential where
  | basic
  | parseFail
  | x509 (identityOk : Bool) (timeValid : Bool)
  deriving DecidableEq, Repr

/-- One iteration of the fold in `e2ei_conversation_state`; the accumulator is
`(state, one_valid, all_expired)`. -/
def e2eiFoldStep (acc : E2eiConversationState × Bool × Bool) (lc : LeafCredential) :
    E2eiConversationState × Bool × Bool :=
  match lc with
  | .x509 identityOk timeValid =>
    let invalid_identity := !identityOk
    let is_time_invalid := !timeValid
    let all_expired := acc.2.2 && is_time_invalid
    let is_invalid := invalid_identity || is_time_invalid
    if is_invalid then (.Degraded, acc.2.1, all_expired)
    else (acc.1, true, all_expired)
  | _ => (.Degraded, acc.2.1, false)

/-- `MlsConversation::e2ei_conversation_state`: fold over the members'
leaf credentials starting from `(Verified, one_valid = false,
all_expired = true)`, then the final match on `(one_valid, all_expired)`. -/
def e2ei_conversation_state (members : List LeafCredential) : E2eiConversationState :=
  let r := members.foldl e2eiFoldStep (.Verified, false, true)
  match r.2.1, r.2.2 with
  | false, true => .Degraded
  | false, false => .NotEnabled
  | true, _ => r.1

/-- C2 failing input: a two-member group with one Basic credential and one
X.509 certificate whose identity parses but which is expired is classified
`NotEnabled` (`one_valid = false`, `all_expired = false`), although neither
the claim ("Degraded in all remaining cases") nor the enum's own doc
("NotEnabled: all clients are still Basic") allows that.  The other three
conjuncts record that the uniform cases behave as the claim states. -/
theorem C2_classifier_failing_input :
    e2ei_conversation_state [.basic, .x509 true false] = .NotEnabled ∧
    E2eiConversationState.NotEnabled ≠ .Degraded ∧
    e2ei_conversation_state [.x509 true false, .x509 true false] = .Degraded ∧
    e2ei_conversation_state [.basic, .basic] = .NotEnabled ∧
    e2ei_conversation_state [.x509 true true, .x509 true true] = .Verified := by
  refine ⟨rfl, by decide, rfl, rfl, rfl⟩

/-! ## Claim C6 — external-commit validation
(crypto/src/mls/external_commit.rs, `validate_external_commit`) -/

/-- openmls `Sender` as matched by `validate_external_commit`. -/
inductive Sender where
  | member (c : ClientId)
  | newMember
  | preconfigured
  deriving DecidableEq, Repr

/-- A queued proposal of a staged commit (`staged_proposal_queue()`). -/
structure StagedProposal where
  sender : Sender
  proposal : ProposalP
  deriving DecidableEq, Repr

/-- A staged commit as inspected by `validate_external_commit`. -/
structure StagedCommit where
  proposals : List StagedProposal
  deriving DecidableEq, Repr

/-- `commit.staged_proposal_queue().any(|p| matches!(p.sender(), Sender::NewMember)
&& matches!(p.proposal(), Proposal::ExternalInit(_)))`. -/
def StagedCommit.is_external_init (commit : StagedCommit) : Bool :=
  commit.proposals.any (fun p =>
    (match p.sender with | .newMember => true | _ => false) &&
    (match p.proposal with | .externalInit => true | _ => false))

/-- `CoreCryptoCallbacks`: the two pure authorization predicates supplied by
the host. -/
structure CoreCryptoCallbacks where
  client_is_existing_group_user : ConversationId → ClientId → List ClientId → Bool
  user_authorize : ConversationId → ClientId → List ClientId → Bool

/-- An observed callback invocation (used to state in which order the two
callbacks run; the Rust function performs these calls as side effects). -/
inductive CallbackCall where
  | clientIsExistingGroupUser (id : ConversationId) (sender : ClientId)
      (members : List ClientId)
  | userAuthorize (id : ConversationId) (sender : ClientId) (members : List ClientId)
  deriving DecidableEq, Repr

/-- `MlsConversation::members_in_next_epoch` as consumed here: the client ids
of the current leaves (pending membership changes play no part in any
claim). -/
def MlsConversation.members_in_next_epoch (c : MlsConversation) : List ClientId :=
  c.group.members.map KeyPackage.identity

/-- `MlsConversation::validate_external_commit`, instrumented with the list of
callback invocations it performs, in order. -/
def MlsConversation.validate_external_commit (c : MlsConversation)
    (commit : StagedCommit) (sender : Option ClientId)
    (callbacks : Option CoreCryptoCallbacks) :
    CryptoResult Unit × List CallbackCall :=
  if commit.is_external_init then
    match callbacks with
    | none => (.error .callbacksNotSet, [])
    | some cb =>
      match sender with
      | none => (.error .unauthorizedExternalCommit, [])
      | some s =>
        let existing_clients := c.members_in_next_epoch
        let call₁ := CallbackCall.clientIsExistingGroupUser c.id s existing_clients
        if !(cb.client_is_existing_group_user c.id s existing_clients) then
          (.error .unauthorizedExternalCommit, [call₁])
        else
          let call₂ := CallbackCall.userAuthorize c.id s existing_clients
          if !(cb.user_authorize c.id s existing_clients) then
            (.error .unauthorizedExternalCommit, [call₁, call₂])
          else (.ok (), [call₁, call₂])
  else (.ok (), [])

/-- C6: for an external commit, missing callbacks fail with `CallbacksNotSet`;
with callbacks installed and a known sender, `client_is_existing_group_user`
runs first and `user_authorize` second, a `false` from either fails with
`UnauthorizedExternalCommit` (the second callback is not even invoked when
the first refuses); for a non-external commit validation succeeds and
neither callback is invoked. -/
theorem C6_validate_external_commit (c : MlsConversation) (commit : StagedCommit)
    (s : ClientId) (cb : CoreCryptoCallbacks) (sender : Option ClientId) :
    (commit.is_external_init = true →
      c.validate_external_commit commit sender none = (.error .callbacksNotSet, [])) ∧
    (commit.is_external_init = true →
      cb.client_is_existing_group_user c.id s c.members_in_next_epoch = false →
      c.validate_external_commit commit (some s) (some cb) =
        (.error .unauthorizedExternalCommit,
          [.clientIsExistingGroupUser c.id s c.members_in_next_epoch])) ∧
    (commit.is_external_init = true →
      cb.client_is_existing_group_user c.id s c.members_in_next_epoch = true →
      cb.user_authorize c.id s c.members_in_next_epoch = false →
      c.validate_external_commit commit (some s) (some cb) =
        (.error .unauthorizedExternalCommit,
          [.clientIsExistingGroupUser c.id s c.members_in_next_epoch,
           .userAuthorize c.id s c.members_in_next_epoch])) ∧
    (commit.is_external_init = true →
      cb.client_is_existing_group_user c.id s c.members_in_next_epoch = true →
      cb.user_authorize c.id s c.members_in_next_epoch = true →
      c.validate_external_commit commit (some s) (some cb) =
        (.ok (),
          [.clientIsExistingGroupUser c.id s c.members_in_next_epoch,
           .userAuthorize c.id s c.members_in_next_epoch])) ∧
    (commit.is_external_init = false →
      c.validate_external_commit commit sender (some cb) = (.ok (), [])) := by
  refine ⟨?_, ?_, ?_, ?_, ?_⟩
  · intro hext
    simp [MlsConversation.validate_external_commit, hext]
  · intro hext h₁
    simp [MlsConversation.validate_external_commit, hext, h₁]
  · intro hext h₁ h₂
    simp [MlsConversation.validate_external_commit, hext, h₁, h₂]
  · intro hext h₁ h₂
    simp [MlsConversation.validate_external_commit, hext, h₁, h₂]
  · intro hext
    simp [MlsConversation.validate_external_commit, hext]

/-- Witness for C6 at a concrete external commit, conversation and constant
callbacks. -/
theorem C6_witness :
    (MlsConversation.validate_external_commit
        ⟨[1], ⟨[5], 0, 7, 0, [⟨[3], 1⟩], [], none, false⟩⟩
        ⟨[⟨.newMember, .externalInit⟩]⟩ (some [8]) none
      = (.error .callbacksNotSet, [])) ∧
    (MlsConversation.validate_external_commit
        ⟨[1], ⟨[5], 0, 7, 0, [⟨[3], 1⟩], [], none, false⟩⟩
        ⟨[⟨.newMember, .externalInit⟩]⟩ (some [8])
        (some ⟨fun _ _ _ => true, fun _ _ _ => true⟩)
      = (.ok (), [.clientIsExistingGroupUser [1] [8] [[3]],
                  .userAuthorize [1] [8] [[3]]])) ∧
    (MlsConversation.validate_external_commit
        ⟨[1], ⟨[5], 0, 7, 0, [⟨[3], 1⟩], [], none, false⟩⟩
        ⟨[⟨.newMember, .externalInit⟩]⟩ (some [8])
        (some ⟨fun _ _ _ => false, fun _ _ _ => true⟩)
      = (.error .unauthorizedExternalCommit,
          [.clientIsExistingGroupUser [1] [8] [[3]]])) ∧
    (MlsConversation.validate_external_commit
        ⟨[1], ⟨[5], 0, 7, 0, [⟨[3], 1⟩], [], none, false⟩⟩
        ⟨[⟨.newMember, .externalInit⟩]⟩ (some [8])
        (some ⟨fun _ _ _ => true, fun _ _ _ => false⟩)
      = (.error .unauthorizedExternalCommit,
          [.clientIsExistingGroupUser [1] [8] [[3]],
           .userAuthorize [1] [8] [[3]]])) ∧
    (MlsConversation.validate_external_commit
        ⟨[1], ⟨[5], 0, 7, 0, [⟨[3], 1⟩], [], none, false⟩⟩
        ⟨[⟨.member [2], .externalInit⟩]⟩ (some [8])
        (some ⟨fun _ _ _ => false, fun _ _ _ => false⟩)
      = (.ok (), [])) := by
  have h₁ := (C6_validate_external_commit
    ⟨[1], ⟨[5], 0, 7, 0, [⟨[3], 1⟩], [], none, false⟩⟩
    ⟨[⟨.newMember, .externalInit⟩]⟩ [8]
    ⟨fun _ _ _ => true, fun _ _ _ => true⟩ (some [8])).1 rfl
  have h₂ := (C6_validate_external_commit
    ⟨[1], ⟨[5], 0, 7, 0, [⟨[3], 1⟩], [], none, false⟩⟩
    ⟨[⟨.newMember, .externalInit⟩]⟩ [8]
    ⟨fun _ _ _ => true, fun _ _ _ => true⟩ (some [8])).2.2.2.1 rfl rfl rfl
  have h₃ := (C6_validate_external_commit
    ⟨[1], ⟨[5], 0, 7, 0, [⟨[3], 1⟩], [], none, false⟩⟩
    ⟨[⟨.newMember, .externalInit⟩]⟩ [8]
    ⟨fun _ _ _ => false, fun _ _ _ => true⟩ (some [8])).2.1 rfl rfl
  have h₄ := (C6_validate_external_commit
    ⟨[1], ⟨[5], 0, 7, 0, [⟨[3], 1⟩], [], none, false⟩⟩
    ⟨[⟨.newMember, .externalInit⟩]⟩ [8]
    ⟨fun _ _ _ => true, fun _ _ _ => false⟩ (some [8])).2.2.1 rfl rfl rfl
  have h₅ := (C6_validate_external_commit
    ⟨[1], ⟨[5], 0, 7, 0, [⟨[3], 1⟩], [], none, false⟩⟩
    ⟨[⟨.member [2], .externalInit⟩]⟩ [8]
    ⟨fun _ _ _ => false, fun _ _ _ => false⟩ (some [8])).2.2.2.2 rfl
  exact ⟨h₁, h₂, h₃, h₄, h₅⟩

/-! ## Claim C5 — merging a pending external-commit group
(crypto/src/mls/external_commit.rs, `merge_pending_group_from_external_commit`)

The source runs, in order: `mls_pending_groups_load`, `MlsGroup::load`,
`merge_pending_commit`, persist the merged group into the main partition
(`MlsConversation::from_mls_group`), insert the conversation in memory, and
finally `mls_pending_groups_delete` — with the source's own comment
"TODO: find a way to make the insertion of the MlsGroup and deletion of the
pending group transactional".  The two keystore writes are separate
operations, so the embedding takes a fail point naming which write (if any)
fails. -/

/-- Which keystore write of the merge fails (none for the happy path). -/
inductive MergeFailPoint where
  | noFail
  | atPersist
  | atDelete
  deriving DecidableEq, Repr

/-- `MlsCentral::merge_pending_group_from_external_commit`, returning the
result together with the keystore as left behind. -/
def MlsCentral.merge_pending_group_from_external_commit (ks : Keystore)
    (id : ConversationId) (fail : MergeFailPoint) : CryptoResult Unit × Keystore :=
  match ks.mls_pending_groups_load id with
  | .error e => (.error e, ks)
  | .ok group =>
    match group.merge_pending_commit with
    | .error e => (.error e, ks)
    | .ok merged =>
      if fail = .atPersist then (.error .keystoreFailure, ks)
      else
        let ks₁ := ks.mls_group_persist id merged.serialized
        if fail = .atDelete then (.error .keystoreFailure, ks₁)
        else (.ok (), ks₁.mls_pending_groups_delete id)

theorem storeLookup_storeRemove_self (l : List (ConversationId × MlsGroup))
    (id : ConversationId) : storeLookup (storeRemove l id) id = none := by
  induction l with
  | nil => rfl
  | cons hd tl ih =>
    obtain ⟨k, v⟩ := hd
    simp only [storeRemove, List.filter_cons] at ih ⊢
    by_cases hk : k = id
    · simp only [hk, ne_eq, not_true_eq_false, decide_False]
      exact ih
    · simp only [ne_eq, hk, not_false_eq_true, decide_True, if_true]
      simp only [storeLookup, hk, if_false]
      exact ih

/-- C5 counterexample: with a pending row for `[1]` whose group has a
mergeable pending commit, a failure at the final pending-row deletion leaves
the operation failed *and* the keystore changed: the merged group is already
persisted in the main partition while the pending row is still there — the
claim's "if the operation fails at any point, the keystore is left
unchanged" is false. -/
theorem C5_counterexample :
    MlsCentral.merge_pending_group_from_external_commit
        ⟨[], [([1], ⟨[5], 0, 7, 0, [⟨[3], 1⟩], [], some ⟨[], []⟩, false⟩)]⟩ [1] .atDelete
      = (.error .keystoreFailure,
         ⟨[([1], ⟨[5], 1, 15, 0, [⟨[3], 1⟩], [], none, false⟩)],
          [([1], ⟨[5], 0, 7, 0, [⟨[3], 1⟩], [], some ⟨[], []⟩, false⟩)]⟩) ∧
    (⟨[([1], ⟨[5], 1, 15, 0, [⟨[3], 1⟩], [], none, false⟩)],
      [([1], ⟨[5], 0, 7, 0, [⟨[3], 1⟩], [], some ⟨[], []⟩, false⟩)]⟩ : Keystore)
      ≠ ⟨[], [([1], ⟨[5], 0, 7, 0, [⟨[3], 1⟩], [], some ⟨[], []⟩, false⟩)]⟩ :=
  ⟨rfl, by decide⟩

/-- C5 amended: the merge moves the group from the pending to the main
partition as two separate keystore writes (the code's TODO records they are
not one transaction).  On success the merged group is in the main partition
and the pending row is gone; a failure before the persist leaves the
keystore unchanged; a failure at the final deletion leaves the merged group
persisted in the main partition with the pending row still present. -/
theorem C5_merge_pending_group (ks : Keystore) (id : ConversationId) :
    (∀ fail, storeLookup ks.mlsPendingGroups id = none →
      MlsCentral.merge_pending_group_from_external_commit ks id fail
        = (.error .keystoreMissingKey, ks)) ∧
    (∀ g merged, storeLookup ks.mlsPendingGroups id = some g →
      g.merge_pending_commit = .ok merged →
      MlsCentral.merge_pending_group_from_external_commit ks id .noFail
          = (.ok (), (ks.mls_group_persist id merged.serialized).mls_pending_groups_delete id) ∧
        storeLookup ((ks.mls_group_persist id
            merged.serialized).mls_pending_groups_delete id).mlsGroups id
          = some merged.serialized ∧
        storeLookup ((ks.mls_group_persist id
            merged.serialized).mls_pending_groups_delete id).mlsPendingGroups id
          = none) ∧
    (∀ g merged, storeLookup ks.mlsPendingGroups id = some g →
      g.merge_pending_commit = .ok merged →
      MlsCentral.merge_pending_group_from_external_commit ks id .atPersist
        = (.error .keystoreFailure, ks)) ∧
    (∀ g merged, storeLookup ks.mlsPendingGroups id = some g →
      g.merge_pending_commit = .ok merged →
      MlsCentral.merge_pending_group_from_external_commit ks id .atDelete
          = (.error .keystoreFailure, ks.mls_group_persist id merged.serialized) ∧
        storeLookup (ks.mls_group_persist id merged.serialized).mlsGroups id
          = some merged.serialized ∧
        storeLookup (ks.mls_group_persist id merged.serialized).mlsPendingGroups id
          = some g) := by
  refine ⟨?_, ?_, ?_, ?_⟩
  · intro fail hnone
    simp [MlsCentral.merge_pending_group_from_external_commit,
      Keystore.mls_pending_groups_load, hnone]
  · intro g merged hload hmrg
    refine ⟨?_, ?_, ?_⟩
    · simp [MlsCentral.merge_pending_group_from_external_commit,
        Keystore.mls_pending_groups_load, hload, hmrg]
    · have hmain : ((ks.mls_group_persist id
          merged.serialized).mls_pending_groups_delete id).mlsGroups
          = storeUpsert ks.mlsGroups id merged.serialized := rfl
      rw [hmain, storeLookup_storeUpsert]
    · have hpend : ((ks.mls_group_persist id
          merged.serialized).mls_pending_groups_delete id).mlsPendingGroups
          = storeRemove ks.mlsPendingGroups id := rfl
      rw [hpend, storeLookup_storeRemove_self]
  · intro g merged hload hmrg
    simp [MlsCentral.merge_pending_group_from_external_commit,
      Keystore.mls_pending_groups_load, hload, hmrg]
  · intro g merged hload hmrg
    refine ⟨?_, ?_, ?_⟩
    · simp [MlsCentral.merge_pending_group_from_external_commit,
        Keystore.mls_pending_groups_load, hload, hmrg]
    · have hmain : (ks.mls_group_persist id merged.serialized).mlsGroups
          = storeUpsert ks.mlsGroups id merged.serialized := rfl
      rw [hmain, storeLookup_storeUpsert]
    · exact hload

/-- Witness for C5 amended at the counterexample's concrete keystore. -/
theorem C5_witness :
    MlsCentral.merge_pending_group_from_external_commit
        ⟨[], [([1], ⟨[5], 0, 7, 0, [⟨[3], 1⟩], [], some ⟨[], []⟩, false⟩)]⟩ [1] .noFail
      = (.ok (), (Keystore.mls_group_persist
          ⟨[], [([1], ⟨[5], 0, 7, 0, [⟨[3], 1⟩], [], some ⟨[], []⟩, false⟩)]⟩ [1]
          (MlsGroup.serialized
            ⟨[5], 1, 15, 0, [⟨[3], 1⟩], [], none, true⟩)).mls_pending_groups_delete [1]) :=
  ((C5_merge_pending_group
    ⟨[], [([1], ⟨[5], 0, 7, 0, [⟨[3], 1⟩], [], some ⟨[], []⟩, false⟩)]⟩ [1]).2.1
    ⟨[5], 0, 7, 0, [⟨[3], 1⟩], [], some ⟨[], []⟩, false⟩
    ⟨[5], 1, 15, 0, [⟨[3], 1⟩], [], none, true⟩ rfl rfl).1

/-! ## Claim C8 — MlsCentralConfiguration::try_new (crypto/src/mls/mod.rs) -/

/-- Modelled from the spec: the exact entropy-seed length required by
`EntropySeed` of `mls_crypto_provider` (a crate outside src/); the spec says
"optional seed, exact length required". -/
def EntropySeed.EXPECTED_LEN : Nat := 32

/-- Modelled from the spec: `EntropySeed::try_from_slice` accepts exactly
`EXPECTED_LEN` bytes and errors otherwise. -/
def EntropySeed.try_from_slice (b : Bytes) : CryptoResult Bytes :=
  if b.length = EntropySeed.EXPECTED_LEN then .ok b else .error .mlsError

/-- Rust slice `&seed[..n]`: panics (`none`) when `n` exceeds the length. -/
def rustSliceTo (seed : Bytes) (n : Nat) : Option Bytes :=
  if n ≤ seed.length then some (seed.take n) else none

/-- `MlsCentralConfiguration` (the fields `try_new` populates). -/
structure MlsCentralConfiguration where
  store_path : List Char
  identity_key : List Char
  client_id : Option ClientId
  ciphersuites : List Nat
  external_entropy : Option Bytes
  deriving DecidableEq, Repr

/-- `MlsCentralConfiguration::try_new`.  The outer `Option` models Rust
panics (`none` = panic): the entropy branch is
`entropy.as_deref().map(|seed| &seed[..EntropySeed::EXPECTED_LEN])
.map(EntropySeed::try_from_slice).transpose()?`, whose slice indexing panics
on seeds shorter than `EXPECTED_LEN`.  `trim().is_empty()` is "every
character is whitespace". -/
def MlsCentralConfiguration.try_new (store_path identity_key : List Char)
    (client_id : Option ClientId) (ciphersuites : List Nat)
    (entropy : Option Bytes) : Option (CryptoResult MlsCentralConfiguration) :=
  if store_path.all Char.isWhitespace then
    some (.error (.malformedIdentifier "store_path"))
  else if identity_key.all Char.isWhitespace then
    some (.error (.malformedIdentifier "identity_key"))
  else
    let client_id_bad :=
      match client_id with
      | some cid => cid.isEmpty
      | none => false
    if client_id_bad then some (.error (.malformedIdentifier "client_id"))
    else
      match entropy with
      | none =>
        some (.ok ⟨store_path, identity_key, client_id, ciphersuites, none⟩)
      | some seed =>
        match rustSliceTo seed EntropySeed.EXPECTED_LEN with
        | none => none
        | some sliced =>
          match EntropySeed.try_from_slice sliced with
          | .error e => some (.error e)
          | .ok es =>
            some (.ok ⟨store_path, identity_key, client_id, ciphersuites, some es⟩)

/-- C8 failing inputs: with otherwise valid parameters, a 16-byte entropy
seed makes `try_new` panic (out-of-range slice) instead of returning an
error value, and a 40-byte seed is silently truncated to 32 bytes and
accepted instead of being a hard error — so the constructor is neither total
nor an error on mismatched lengths. -/
theorem C8_entropy_seed_divergence :
    MlsCentralConfiguration.try_new ['a'] ['k'] none [1]
        (some (List.replicate 16 0)) = none ∧
    MlsCentralConfiguration.try_new ['a'] ['k'] none [1]
        (some (List.replicate 40 0)) =
      some (.ok ⟨['a'], ['k'], none, [1], some (List.replicate 32 0)⟩) := by
  constructor
  · rfl
  · rfl

/-! ## Claim C9 — the ProteusIdentity singleton row
(keystore/src/entities/platform/generic/proteus/identity.rs) -/

/-- A `proteus_identities` row: public and secret key bytes. -/
structure ProteusIdentity where
  pk : Bytes
  sk : Bytes
  deriving DecidableEq, Repr

/-- `ProteusIdentity::count`: `SELECT COUNT(*) FROM proteus_identities`. -/
def ProteusIdentity.count (rows : List ProteusIdentity) : Nat := rows.length

/-- `ProteusIdentity::save`: when a row already exists (`count == 1`), return
`Ok(())` without touching the table; otherwise insert the new row. -/
def ProteusIdentity.save (ident : ProteusIdentity) (rows : List ProteusIdentity) :
    CryptoResult (List ProteusIdentity) :=
  if ProteusIdentity.count rows = 1 then .ok rows
  else .ok (rows ++ [ident])

/-- `ProteusIdentity::find_one`: the row with the smallest rowid, if any. -/
def ProteusIdentity.find_one (rows : List ProteusIdentity) : Option ProteusIdentity :=
  rows.head?

/-- `ProteusIdentity::delete`: `query_row` on an empty table errors
(`QueryReturnedNoRows`); otherwise the first row is deleted. -/
def ProteusIdentity.delete (rows : List ProteusIdentity) :
    CryptoResult (List ProteusIdentity) :=
  match rows with
  | [] => .error .keystoreFailure
  | _ :: tl => .ok tl

/-- The operations that touch the `proteus_identities` table. -/
inductive ProteusIdentityOp where
  | save (i : ProteusIdentity)
  | delete
  deriving Repr

/-- One table transition; a failed operation leaves the table unchanged. -/
def ProteusIdentity.stepOp (rows : List ProteusIdentity) (op : ProteusIdentityOp) :
    List ProteusIdentity :=
  match op with
  | .save i =>
    match ProteusIdentity.save i rows with
    | .ok r => r
    | .error _ => rows
  | .delete =>
    match ProteusIdentity.delete rows with
    | .ok r => r
    | .error _ => rows

theorem ProteusIdentity.stepOp_card (rows : List ProteusIdentity)
    (op : ProteusIdentityOp) (h : rows.length ≤ 1) :
    (ProteusIdentity.stepOp rows op).length ≤ 1 := by
  cases op with
  | save i =>
    simp only [ProteusIdentity.stepOp, ProteusIdentity.save, ProteusIdentity.count]
    by_cases h1 : rows.length = 1
    · simp [h1]
    · rw [if_neg h1]
      simp only [List.length_append, List.length_singleton]
      omega
  | delete =>
    cases rows with
    | nil => simp [ProteusIdentity.stepOp, ProteusIdentity.delete]
    | cons hd tl =>
      simp only [ProteusIdentity.stepOp, ProteusIdentity.delete]
      simp only [List.length_cons] at h
      omega

/-- C9: starting from an empty table, every sequence of saves and deletes
leaves at most one identity row; and saving when a row is already stored is
a silent no-op — it returns `Ok` and the table (hence the previously stored
identity, `find_one`) is unchanged, the new keypair being discarded. -/
theorem C9_proteus_identity_singleton :
    (∀ ops : List ProteusIdentityOp,
        (ops.foldl ProteusIdentity.stepOp []).length ≤ 1) ∧
    (∀ (i : ProteusIdentity) (rows : List ProteusIdentity), rows.length = 1 →
        ProteusIdentity.save i rows = .ok rows ∧
          ProteusIdentity.find_one rows = ProteusIdentity.find_one rows) := by
  constructor
  · intro ops
    have hgen : ∀ (rows : List ProteusIdentity), rows.length ≤ 1 →
        (ops.foldl ProteusIdentity.stepOp rows).length ≤ 1 := by
      induction ops with
      | nil => exact fun rows h => h
      | cons op tl ih =>
        intro rows h
        exact ih _ (ProteusIdentity.stepOp_card rows op h)
    exact hgen [] (by simp)
  · intro i rows h
    refine ⟨?_, rfl⟩
    simp [ProteusIdentity.save, ProteusIdentity.count, h]

/-- Witness for C9: a saved identity over a one-row table is discarded. -/
theorem C9_witness :
    ProteusIdentity.save ⟨[1], [2]⟩ [⟨[3], [4]⟩] = .ok [⟨[3], [4]⟩] :=
  ((C9_proteus_identity_singleton).2 ⟨[1], [2]⟩ [⟨[3], [4]⟩] rfl).1

/-! ## Claim C10 — ProteusCentral::encrypt and encrypt_batched
(crypto/src/proteus.rs) -/

/-- An in-memory Proteus session: its identifier plus the send half of the
double ratchet (idealized as a chain key and counter). -/
structure ProteusConversationSession where
  identifier : List Char
  sendKey : Nat
  sendCounter : Nat
  deriving DecidableEq, Repr

/-- `ProteusConversationSession::encrypt`: serialize the envelope sealed at
the current chain position and advance the send chain. -/
def ProteusConversationSession.encrypt (s : ProteusConversationSession)
    (plaintext : Bytes) : ProteusConversationSession × Bytes :=
  ({ s with sendCounter := s.sendCounter + 1 },
   sealApp s.sendKey s.sendCounter plaintext)

/-- `ProteusCentral`: the in-memory session map (`HashMap` keyed by the
session identifier). -/
structure ProteusCentral where
  proteus_sessions : List ProteusConversationSession
  deriving DecidableEq, Repr

/-- `self.proteus_sessions.get_mut(session_id)`. -/
def ProteusCentral.session_mut (pc : ProteusCentral) (session_id : List Char) :
    Option ProteusConversationSession :=
  pc.proteus_sessions.find? (fun s => decide (s.identifier = session_id))

/-- Write back the mutated session under its identifier. -/
def ProteusCentral.updateSession (pc : ProteusCentral) (session_id : List Char)
    (s' : ProteusConversationSession) : ProteusCentral :=
  ⟨pc.proteus_sessions.map (fun t => if t.identifier = session_id then s' else t)⟩

/-- `ProteusCentral::encrypt`: unknown session ids fail with
`ConversationNotFound(session_id.as_bytes())`. -/
def ProteusCentral.encrypt (pc : ProteusCentral) (session_id : List Char)
    (plaintext : Bytes) : CryptoResult (Bytes × ProteusCentral) :=
  match pc.session_mut session_id with
  | some s =>
    let r := s.encrypt plaintext
    .ok (r.2, pc.updateSession session_id r.1)
  | none => .error (.conversationNotFound (session_id.map Char.toNat))

/-- Insert-or-overwrite into the accumulator `HashMap`. -/
def envMapInsert (m : List (List Char × Bytes)) (k : List Char) (v : Bytes) :
    List (List Char × Bytes) :=
  match m with
  | [] => [(k, v)]
  | (k', v') :: tl => if k' = k then (k, v) :: tl else (k', v') :: envMapInsert tl k v

/-- Accumulator lookup. -/
def envMapLookup (m : List (List Char × Bytes)) (k : List Char) : Option Bytes :=
  match m with
  | [] => none
  | (k', v') :: tl => if k' = k then some v' else envMapLookup tl k

/-- One iteration of the `encrypt_batched` loop: session ids present in
memory contribute an entry keyed by the session's identifier; unknown ids
are silently skipped. -/
def encryptBatchedStep (plaintext : Bytes)
    (st : List (List Char × Bytes) × ProteusCentral) (session_id : List Char) :
    List (List Char × Bytes) × ProteusCentral :=
  match st.2.session_mut session_id with
  | some s =>
    let r := s.encrypt plaintext
    (envMapInsert st.1 s.identifier r.2, st.2.updateSession session_id r.1)
  | none => st

/-- `ProteusCentral::encrypt_batched`. -/
def ProteusCentral.encrypt_batched (pc : ProteusCentral)
    (sessions : List (List Char)) (plaintext : Bytes) :
    CryptoResult (List (List Char × Bytes) × ProteusCentral) :=
  .ok (sessions.foldl (encryptBatchedStep plaintext) ([], pc))

theorem ProteusCentral.session_mut_isSome_iff (pc : ProteusCentral) (k : List Char) :
    (pc.session_mut k).isSome ↔ k ∈ pc.proteus_sessions.map (·.identifier) := by
  simp [ProteusCentral.session_mut, List.find?_isSome, List.mem_map]

theorem ProteusCentral.updateSession_identifiers (pc : ProteusCentral)
    (sid : List Char) (s' : ProteusConversationSession) (hid : s'.identifier = sid) :
    (pc.updateSession sid s').proteus_sessions.map (·.identifier)
      = pc.proteus_sessions.map (·.identifier) := by
  simp only [ProteusCentral.updateSession, List.map_map]
  apply List.map_congr_left
  intro t ht
  by_cases h : t.identifier = sid
  · simp [h, hid]
  · simp [h]

theorem envMapLookup_envMapInsert (m : List (List Char × Bytes)) (k q : List Char)
    (v : Bytes) :
    envMapLookup (envMapInsert m k v) q = if k = q then some v else envMapLookup m q := by
  induction m with
  | nil => simp [envMapInsert, envMapLookup]
  | cons hd tl ih =>
    obtain ⟨k', v'⟩ := hd
    by_cases h1 : k' = k
    · subst h1
      by_cases h2 : k' = q
      · simp [envMapInsert, envMapLookup, h2]
      · simp [envMapInsert, envMapLookup, h2]
    · by_cases h2 : k' = q
      · subst h2
        have hkq : ¬ k = k' := fun hh => h1 hh.symm
        simp [envMapInsert, envMapLookup, h1, hkq]
      · simp [envMapInsert, envMapLookup, h1, h2, ih]

theorem encryptBatchedStep_fold_keys (plaintext : Bytes) :
    ∀ (sessions : List (List Char)) (acc : List (List Char × Bytes))
      (pc : ProteusCentral) (q : List Char),
      (envMapLookup (sessions.foldl (encryptBatchedStep plaintext) (acc, pc)).1 q).isSome
        ↔ ((envMapLookup acc q).isSome ∨ (q ∈ sessions ∧ (pc.session_mut q).isSome)) := by
  intro sessions
  induction sessions with
  | nil =>
    intro acc pc q
    simp
  | cons sid tl ih =>
    intro acc pc q
    simp only [List.foldl_cons]
    rcases hs : pc.session_mut sid with _ | s
    · have hstep : encryptBatchedStep plaintext (acc, pc) sid = (acc, pc) := by
        simp [encryptBatchedStep, hs]
      rw [hstep, ih]
      constructor
      · rintro (h | ⟨hq, hsm⟩)
        · exact Or.inl h
        · exact Or.inr ⟨List.mem_cons_of_mem _ hq, hsm⟩
      · rintro (h | ⟨hq, hsm⟩)
        · exact Or.inl h
        · rcases List.mem_cons.mp hq with rfl | hq'
          · rw [hs] at hsm
            exact absurd hsm (by simp)
          · exact Or.inr ⟨hq', hsm⟩
    · have hid : s.identifier = sid := by
        have hp := List.find?_some hs
        simpa using hp
      have hstep : encryptBatchedStep plaintext (acc, pc) sid
          = (envMapInsert acc s.identifier (s.encrypt plaintext).2,
             pc.updateSession sid (s.encrypt plaintext).1) := by
        simp [encryptBatchedStep, hs]
      have hidE : ((s.encrypt plaintext).1).identifier = sid := hid
      have hupd : ∀ q', ((pc.updateSession sid (s.encrypt plaintext).1).session_mut q').isSome
          ↔ (pc.session_mut q').isSome := by
        intro q'
        rw [ProteusCentral.session_mut_isSome_iff, ProteusCentral.session_mut_isSome_iff,
          ProteusCentral.updateSession_identifiers _ _ _ hidE]
      rw [hstep, ih]
      rw [hid, envMapLookup_envMapInsert]
      by_cases hq : sid = q
      · subst hq
        rw [if_pos rfl]
        constructor
        · intro _
          exact Or.inr ⟨List.mem_cons_self _ _, by rw [hs]; rfl⟩
        · intro _
          exact Or.inl (by simp)
      · rw [if_neg hq]
        constructor
        · rintro (h | ⟨hq', hsm⟩)
          · exact Or.inl h
          · exact Or.inr ⟨List.mem_cons_of_mem _ hq', (hupd q).mp hsm⟩
        · rintro (h | ⟨hq', hsm⟩)
          · exact Or.inl h
          · rcases List.mem_cons.mp hq' with rfl | hq''
            · exact absurd rfl hq
            · exact Or.inr ⟨hq'', (hupd q).mpr hsm⟩

/-- C10: `encrypt_batched` always succeeds and its map holds an entry exactly
for each listed session id that exists in memory, silently skipping unknown
ids — while single-session `encrypt` on an unknown id fails with
`ConversationNotFound(session_id.as_bytes())`. -/
theorem C10_encrypt_batched_skips_unknown :
    (∀ (pc : ProteusCentral) (sessions : List (List Char)) (plaintext : Bytes),
      ∃ res, pc.encrypt_batched sessions plaintext = .ok res ∧
        ∀ sid, ((envMapLookup res.1 sid).isSome
          ↔ (sid ∈ sessions ∧ (pc.session_mut sid).isSome))) ∧
    (∀ (pc : ProteusCentral) (sid : List Char) (plaintext : Bytes),
      pc.session_mut sid = none →
      pc.encrypt sid plaintext
        = .error (.conversationNotFound (sid.map Char.toNat))) := by
  constructor
  · intro pc sessions plaintext
    refine ⟨(sessions.foldl (encryptBatchedStep plaintext) ([], pc)), rfl, ?_⟩
    intro sid
    rw [encryptBatchedStep_fold_keys]
    simp [envMapLookup]
  · intro pc sid plaintext hnone
    simp [ProteusCentral.encrypt, hnone]

/-- Witness for C10 at a central holding the single session `"a"`. -/
theorem C10_witness :
    (∃ res, ProteusCentral.encrypt_batched ⟨[⟨['a'], 3, 0⟩]⟩ [['a'], ['b']] [9]
        = .ok res ∧
      ∀ sid, ((envMapLookup res.1 sid).isSome
        ↔ (sid ∈ [['a'], ['b']] ∧
            ((⟨[⟨['a'], 3, 0⟩]⟩ : ProteusCentral).session_mut sid).isSome))) ∧
    ProteusCentral.encrypt ⟨[⟨['a'], 3, 0⟩]⟩ ['b'] [9]
      = .error (.conversationNotFound (['b'].map Char.toNat)) :=
  ⟨C10_encrypt_batched_skips_unknown.1 ⟨[⟨['a'], 3, 0⟩]⟩ [['a'], ['b']] [9],
   C10_encrypt_batched_skips_unknown.2 ⟨[⟨['a'], 3, 0⟩]⟩ ['b'] [9] (by decide)⟩

end CoreCrypto
